import Mathlib

/-!
Shallow embedding of the request-governance layer of the french-verb-practice
app: the in-memory rate limiter (`src/unnamed/part_008`, class `RateLimiter`),
the cost-tracking ledger and budget gate (`src/utils/adminService.js`, second
half: `costTracking.js`), the input guard (`src/utils/supabaseTest.js`, second
half: `security.js`), the Grok provider (`src/unnamed/part_006`), the AI
service dispatcher (`src/utils/authService.js`, second half: `aiService.js`)
and the submission handler (`src/screens/PracticeScreen.js`, `handleSubmit`).

Modelling conventions:
* JavaScript millisecond timestamps (`Date.now()`) become `Int`, so that JS
  number subtraction and comparisons translate literally.
* Dollar costs and token-price arithmetic become `ℚ` (the JS doubles carry
  exact decimal literals here; no claim in sight depends on binary rounding).
* Strings are modelled as Lean `String`/`List Char`.  JS `string.length`
  counts UTF-16 units while Lean counts code points; the two agree on all
  Basic-Multilingual-Plane text, which covers every concrete input used below.
* Mutation of `this` becomes explicit state passing: a method that mutates
  returns the new state next to its result.
-/

/-! ## JavaScript character classes and case folding

`\s` in a JS regex and `String.prototype.trim` both use the WhiteSpace ∪
LineTerminator set.  Case-insensitive (`/i`, non-unicode) matching of an ASCII
pattern character canonicalizes only ASCII input characters, so folding ASCII
upper case to lower case is exact. -/

/-- The JS `\s` / trim whitespace set: TAB LF VT FF CR SP NBSP, the
Space_Separator category (U+1680, U+2000-U+200A, U+202F, U+205F, U+3000),
the line separators U+2028/U+2029 and ZWNBSP U+FEFF. -/
def jsWs (c : Char) : Bool :=
  c = ' ' || c = '\t' || c = '\n' || c.toNat = 0x0b || c.toNat = 0x0c ||
  c = '\r' || c.toNat = 0xa0 || c.toNat = 0x1680 ||
  (0x2000 ≤ c.toNat && c.toNat ≤ 0x200a) ||
  c.toNat = 0x2028 || c.toNat = 0x2029 || c.toNat = 0x202f ||
  c.toNat = 0x205f || c.toNat = 0x3000 || c.toNat = 0xfeff

/-- ASCII lower-casing; exact for `/i` matching against ASCII pattern text. -/
def toLowerA (c : Char) : Char :=
  if 'A' ≤ c && c ≤ 'Z' then Char.ofNat (c.toNat + 32) else c

/-- Case-insensitive character comparison as JS `/i` performs it for ASCII
pattern characters. -/
def eqCI (p c : Char) : Bool := toLowerA p = toLowerA c

/-! ## Rate limiter (`src/unnamed/part_008`)

```js
class RateLimiter {
  constructor() { this.requests = []; this.lastRequestTime = null; ... }
  checkRateLimit() { ... }
  recordRequest() { ... }
}
```
-/

def MIN_DELAY_MS : Int := 2000

def MAX_REQUESTS_PER_MINUTE : Nat := 10

def MAX_REQUESTS_PER_HOUR : Nat := 50

structure RateLimiterState where
  requests : List Int
  lastRequestTime : Option Int
  deriving Repr, DecidableEq

/-- Fresh limiter as built by the constructor. -/
def RateLimiterState.initial : RateLimiterState := ⟨[], none⟩

structure RateCheckResult where
  allowed : Bool
  reason : Option String
  waitTime : Int
  deriving Repr, DecidableEq

/-- `Math.ceil(a / 1000)` for the positive numerators produced by the
min-delay branch. -/
def ceilDiv1000 (a : Int) : Int := (a + 999) / 1000

/-- `checkRateLimit()`, with the mutation of `this.requests` (the lazy prune)
returned as the second component.  The JS guard `if (this.lastRequestTime)` is
a truthiness test, so a stored timestamp of exactly `0` would be skipped like
`null`; this is kept faithfully. -/
def checkRateLimit (s : RateLimiterState) (now : Int) :
    RateCheckResult × RateLimiterState :=
  let minDelayHit :=
    match s.lastRequestTime with
    | none => false
    | some last => last ≠ 0 && now - last < MIN_DELAY_MS
  if minDelayHit then
    let last := s.lastRequestTime.getD 0
    let waitTime := ceilDiv1000 (MIN_DELAY_MS - (now - last))
    ({ allowed := false
       reason := some s!"Please wait {waitTime} seconds between submissions"
       waitTime := waitTime }, s)
  else
    let oneHourAgo := now - 60 * 60 * 1000
    let requests := s.requests.filter (fun time => oneHourAgo < time)
    let oneMinuteAgo := now - 60 * 1000
    let requestsInLastMinute :=
      (requests.filter (fun time => oneMinuteAgo < time)).length
    let s' : RateLimiterState := { s with requests := requests }
    if MAX_REQUESTS_PER_MINUTE ≤ requestsInLastMinute then
      ({ allowed := false
         reason := some "Too many requests per minute. Please slow down."
         waitTime := 60 }, s')
    else if MAX_REQUESTS_PER_HOUR ≤ requests.length then
      ({ allowed := false
         reason := some "Hourly request limit reached. Please try again later."
         waitTime := 3600 }, s')
    else
      ({ allowed := true, reason := none, waitTime := 0 }, s')

/-- `recordRequest()`. -/
def recordRequest (s : RateLimiterState) (now : Int) : RateLimiterState :=
  { requests := s.requests ++ [now], lastRequestTime := some now }

/-- One operation of the rate limiter's public mutating interface. -/
inductive RLOp
  | check
  | record
  deriving Repr, DecidableEq

/-- Apply one operation at a given time, keeping only the state. -/
def applyRLOp (s : RateLimiterState) (op : RLOp × Int) : RateLimiterState :=
  match op.1 with
  | .check => (checkRateLimit s op.2).2
  | .record => recordRequest s op.2

/-- Run a sequence of timed operations from a state. -/
def runRL (s : RateLimiterState) (ops : List (RLOp × Int)) : RateLimiterState :=
  ops.foldl applyRLOp s

/-! ## Cost tracking (`src/utils/adminService.js`, second half: `costTracking.js`)

The ledger persisted under `@cost_tracking`; `AsyncStorage` round-trips the
serialized state, so the durable store is modelled as holding the state
directly. -/

/-- Grok pricing table (`PRICING`), dollars per million tokens. -/
def PRICING (model : String) : Option (ℚ × ℚ) :=
  if model = "grok-4-fast-non-reasoning" then some (0.20, 0.50)
  else if model = "grok-4" then some (3.00, 15.00)
  else none

/-- `calculateCost(model, inputTokens, outputTokens)`, with the
`PRICING[model] || PRICING['grok-4-fast-non-reasoning']` fallback. -/
def calculateCost (model : String) (inputTokens outputTokens : ℕ) : ℚ :=
  let pricing := (PRICING model).getD (0.20, 0.50)
  (inputTokens : ℚ) / 1000000 * pricing.1 + (outputTokens : ℚ) / 1000000 * pricing.2

/-- `estimateTokens(text) = Math.ceil(text.length / 3.5)`; on naturals
`⌈2n/7⌉ = (2n + 6) / 7`. -/
def estimateTokens (text : String) : ℕ := (2 * text.length + 6) / 7

structure UsageRecord where
  timestamp : Int
  model : String
  inputTokens : ℕ
  outputTokens : ℕ
  cost : ℚ
  deriving Repr, DecidableEq

structure UsageStats where
  totalRequests : ℕ
  totalCost : ℚ
  dailyCost : ℚ
  weeklyCost : ℚ
  monthlyCost : ℚ
  lastResetDate : String
  requests : List UsageRecord
  deriving Repr, DecidableEq

/-- The zeroed default state `getUsageStats` builds when nothing is stored;
`isoNow` stands for `new Date().toISOString()`. -/
def emptyUsageStats (isoNow : String) : UsageStats :=
  { totalRequests := 0, totalCost := 0, dailyCost := 0, weeklyCost := 0
    monthlyCost := 0, lastResetDate := isoNow, requests := [] }

/-- Outcome of `AsyncStorage.getItem('@cost_tracking')`: a raised error, no
stored value, or a previously persisted state. -/
inductive LedgerRead
  | failure (message : String)
  | absent
  | stored (stats : UsageStats)
  deriving Repr, DecidableEq

/-- `getUsageStats()`: returns the parsed stored state, the zeroed default
when nothing is stored, and — in the `catch` branch — `null` when the read
raises. -/
def getUsageStats (read : LedgerRead) (isoNow : String) : Option UsageStats :=
  match read with
  | .failure _ => none
  | .absent => some (emptyUsageStats isoNow)
  | .stored stats => some stats

/-- Sum of the `cost` fields of a record list (`reduce((sum, r) => sum + r.cost, 0)`). -/
def sumCosts (rs : List UsageRecord) : ℚ := rs.foldl (fun sum r => sum + r.cost) 0

/-- `recordUsage(model, inputTokens, outputTokens)` acting on an in-hand
state (the surrounding `getUsageStats` read and the final `setItem` write are
the caller's I/O); `now` is `Date.now()` at call time. -/
def recordUsage (stats : UsageStats) (model : String)
    (inputTokens outputTokens : ℕ) (now : Int) : UsageStats :=
  let cost := calculateCost model inputTokens outputTokens
  let request : UsageRecord :=
    { timestamp := now, model := model, inputTokens := inputTokens
      outputTokens := outputTokens, cost := cost }
  let requests := stats.requests ++ [request]
  let oneDayAgo := now - 24 * 60 * 60 * 1000
  let oneWeekAgo := now - 7 * 24 * 60 * 60 * 1000
  let oneMonthAgo := now - 30 * 24 * 60 * 60 * 1000
  { totalRequests := stats.totalRequests + 1
    totalCost := stats.totalCost + cost
    dailyCost := sumCosts (requests.filter (fun r => oneDayAgo < r.timestamp))
    weeklyCost := sumCosts (requests.filter (fun r => oneWeekAgo < r.timestamp))
    monthlyCost := sumCosts (requests.filter (fun r => oneMonthAgo < r.timestamp))
    lastResetDate := stats.lastResetDate
    requests := requests.filter (fun r => oneMonthAgo < r.timestamp) }

/-- One `recordUsage` call: model name, input tokens, output tokens, time. -/
structure LedgerCall where
  model : String
  inputTokens : ℕ
  outputTokens : ℕ
  now : Int
  deriving Repr, DecidableEq

/-- Ledger state after a sequence of `recordUsage` calls starting from the
zeroed default. -/
def runLedger (isoStart : String) (calls : List LedgerCall) : UsageStats :=
  calls.foldl
    (fun stats c => recordUsage stats c.model c.inputTokens c.outputTokens c.now)
    (emptyUsageStats isoStart)

/-! ## Budget gate (`checkBudget`) -/

/-- The caller-supplied budget object; each field may be absent
(`checkBudget(budget = {})` with `{ ...defaultBudget, ...budget }`). -/
structure BudgetInput where
  daily : Option ℚ := none
  weekly : Option ℚ := none
  monthly : Option ℚ := none
  deriving Repr, DecidableEq

structure BudgetLimits where
  daily : ℚ
  weekly : ℚ
  monthly : ℚ
  deriving Repr, DecidableEq

/-- `const limits = { ...defaultBudget, ...budget }` with
`defaultBudget = { daily: 1.00, weekly: 5.00, monthly: 15.00 }`. -/
def mergeBudget (budget : BudgetInput) : BudgetLimits :=
  { daily := budget.daily.getD 1.00
    weekly := budget.weekly.getD 5.00
    monthly := budget.monthly.getD 15.00 }

structure BudgetResult where
  allowed : Bool
  reason : Option String
  currentCost : Option ℚ
  limit : Option ℚ
  period : Option String
  deriving Repr, DecidableEq

/-- `checkBudget(budget)`.  The `reason` strings carry interpolated dollar
amounts in the source (`$${...toFixed(4)} / $${...}`); the interpolated
numerals are elided here, the fixed text is kept. -/
def checkBudget (budget : BudgetInput) (read : LedgerRead) (isoNow : String) :
    BudgetResult :=
  let limits := mergeBudget budget
  match getUsageStats read isoNow with
  | none => { allowed := true, reason := none, currentCost := none
              limit := none, period := none }
  | some stats =>
    if limits.daily ≤ stats.dailyCost then
      { allowed := false, reason := some "Daily budget limit reached"
        currentCost := some stats.dailyCost, limit := some limits.daily
        period := some "daily" }
    else if limits.weekly ≤ stats.weeklyCost then
      { allowed := false, reason := some "Weekly budget limit reached"
        currentCost := some stats.weeklyCost, limit := some limits.weekly
        period := some "weekly" }
    else if limits.monthly ≤ stats.monthlyCost then
      { allowed := false, reason := some "Monthly budget limit reached"
        currentCost := some stats.monthlyCost, limit := some limits.monthly
        period := some "monthly" }
    else
      { allowed := true, reason := none, currentCost := none
        limit := none, period := none }

/-! ## Helper lemmas on the ledger -/

theorem recordUsage_totalCost (stats : UsageStats) (m : String) (i o : ℕ) (now : Int) :
    (recordUsage stats m i o now).totalCost = stats.totalCost + calculateCost m i o := rfl

theorem runLedger_totalCost_aux (calls : List LedgerCall) (stats : UsageStats) :
    (calls.foldl (fun stats c =>
        recordUsage stats c.model c.inputTokens c.outputTokens c.now) stats).totalCost =
      stats.totalCost +
        (calls.map (fun c => calculateCost c.model c.inputTokens c.outputTokens)).sum := by
  induction calls generalizing stats with
  | nil => simp
  | cons c cs ih => simp [List.foldl_cons, ih, recordUsage_totalCost]; ring

/-! ## Claim C2 — `totalCost == sum(records.cost)` after every update

The 30-day prune (`stats.requests.filter(r => r.timestamp > oneMonthAgo)`)
drops records without subtracting their cost from `totalCost`, so two calls
more than 30 days apart break the claimed invariant. -/

/-- C2 counterexample: record 100/200 tokens at t = 0 and again at
t = 30 days + 1 ms.  The first record is pruned, but `totalCost` still
contains its cost, so `totalCost ≠ sum(records.cost)` after the second
`recordUsage`. -/
theorem claim_C2_counterexample :
    ¬ ((runLedger "2026-01-01" [⟨"grok-4-fast-non-reasoning", 100, 200, 0⟩,
        ⟨"grok-4-fast-non-reasoning", 100, 200, 2592000001⟩]).totalCost =
      sumCosts (runLedger "2026-01-01" [⟨"grok-4-fast-non-reasoning", 100, 200, 0⟩,
        ⟨"grok-4-fast-non-reasoning", 100, 200, 2592000001⟩]).requests) := by
  norm_num [runLedger, recordUsage, calculateCost, sumCosts, emptyUsageStats, PRICING]

/-- C2 (amended): after every sequence of `recordUsage` calls at arbitrary
timestamps, `totalCost` equals the sum of the costs of ALL records ever
recorded — including records since pruned by the 30-day retention filter —
not the sum over the retained records only. -/
theorem claim_C2_amended (isoStart : String) (calls : List LedgerCall) :
    (runLedger isoStart calls).totalCost =
      (calls.map (fun c => calculateCost c.model c.inputTokens c.outputTokens)).sum := by
  have := runLedger_totalCost_aux calls (emptyUsageStats isoStart)
  simpa [runLedger, emptyUsageStats] using this

/-! ## Claim C3 — ledger read failures and `checkBudget`

`getUsageStats` catches a failing read and returns `null`; `checkBudget`
maps `null` to `{ allowed: true }`.  A read failure is therefore swallowed
and fail-open, not propagated. -/

/-- C3 counterexample: with a failing ledger read, `checkBudget` returns
`allowed: true` — the read failure is converted into an allowed decision
rather than propagated. -/
theorem claim_C3_counterexample :
    (checkBudget {} (.failure "storage unavailable") "2026-01-01").allowed = true := rfl

/-- C3 (amended): when reading the persisted ledger state fails,
`getUsageStats` catches the error and returns `null`, and `checkBudget`
turns that `null` into the fail-open decision `{ allowed: true, reason:
null }` for every budget configuration — the failure never reaches the
caller as an error. -/
theorem claim_C3_amended (budget : BudgetInput) (message isoNow : String) :
    checkBudget budget (.failure message) isoNow =
        { allowed := true, reason := none, currentCost := none
          limit := none, period := none } ∧
      getUsageStats (.failure message) isoNow = none :=
  ⟨rfl, rfl⟩

/-! ## Claim C8 — budget periods are checked daily, then weekly, then
monthly, inclusively, with short-circuit on the first breach. -/

/-- C8: for every ledger state and configured limits, `checkBudget` tests
daily, then weekly, then monthly cost against its limit with inclusive
comparison (`currentCost >= limit`), short-circuits on the first breached
period, and reports that period; in particular a daily breach is reported as
`period = "daily"` regardless of the weekly and monthly costs. -/
theorem claim_C8_budget_order (budget : BudgetInput) (stats : UsageStats) (isoNow : String) :
    ((mergeBudget budget).daily ≤ stats.dailyCost →
      checkBudget budget (.stored stats) isoNow =
        { allowed := false, reason := some "Daily budget limit reached"
          currentCost := some stats.dailyCost, limit := some (mergeBudget budget).daily
          period := some "daily" }) ∧
    (stats.dailyCost < (mergeBudget budget).daily →
      (mergeBudget budget).weekly ≤ stats.weeklyCost →
      checkBudget budget (.stored stats) isoNow =
        { allowed := false, reason := some "Weekly budget limit reached"
          currentCost := some stats.weeklyCost, limit := some (mergeBudget budget).weekly
          period := some "weekly" }) ∧
    (stats.dailyCost < (mergeBudget budget).daily →
      stats.weeklyCost < (mergeBudget budget).weekly →
      (mergeBudget budget).monthly ≤ stats.monthlyCost →
      checkBudget budget (.stored stats) isoNow =
        { allowed := false, reason := some "Monthly budget limit reached"
          currentCost := some stats.monthlyCost, limit := some (mergeBudget budget).monthly
          period := some "monthly" }) ∧
    (stats.dailyCost < (mergeBudget budget).daily →
      stats.weeklyCost < (mergeBudget budget).weekly →
      stats.monthlyCost < (mergeBudget budget).monthly →
      checkBudget budget (.stored stats) isoNow =
        { allowed := true, reason := none, currentCost := none
          limit := none, period := none }) := by
  refine ⟨fun h1 => ?_, fun h1 h2 => ?_, fun h1 h2 h3 => ?_, fun h1 h2 h3 => ?_⟩ <;>
    simp only [checkBudget, getUsageStats]
  · rw [if_pos h1]
  · rw [if_neg (not_le.mpr h1), if_pos h2]
  · rw [if_neg (not_le.mpr h1), if_neg (not_le.mpr h2), if_pos h3]
  · rw [if_neg (not_le.mpr h1), if_neg (not_le.mpr h2), if_neg (not_le.mpr h3)]

/-- C8 witness: a ledger whose daily ($2), weekly ($6) and monthly ($16)
costs all breach the default limits still reports the daily period. -/
theorem claim_C8_budget_order_witness :
    (mergeBudget {}).daily ≤ (UsageStats.mk 5 20 2 6 16 "2026-01-01" []).dailyCost ∧
      checkBudget {} (.stored (UsageStats.mk 5 20 2 6 16 "2026-01-01" [])) "2026-01-02" =
        { allowed := false, reason := some "Daily budget limit reached"
          currentCost := some (UsageStats.mk 5 20 2 6 16 "2026-01-01" []).dailyCost
          limit := some (mergeBudget {}).daily
          period := some "daily" } :=
  ⟨by norm_num [mergeBudget],
   (claim_C8_budget_order {} (UsageStats.mk 5 20 2 6 16 "2026-01-01" []) "2026-01-02").1
     (by norm_num [mergeBudget])⟩

/-! ## Claim C4 — retained timestamps vs the trailing 1-hour window

Pruning is lazy and only happens inside `checkRateLimit` (and only when the
min-delay gate does not deny first); `recordRequest` never prunes.  A state
reached by two `recordRequest` calls more than an hour apart therefore
retains a timestamp outside the trailing window. -/

/-- The claim-side invariant: every retained timestamp lies within the
trailing 1-hour window measured from the time of the most recent operation. -/
def withinHourWindow (s : RateLimiterState) (now : Int) : Prop :=
  ∀ t ∈ s.requests, now - t ≤ 3600000

instance (s : RateLimiterState) (now : Int) : Decidable (withinHourWindow s now) := by
  unfold withinHourWindow; infer_instance

/-- C4 counterexample: `recordRequest` at t = 0 and again at t = 2 h leaves
`requestTimestamps = [0, 7200000]`; the timestamp 0 is 2 hours older than the
most recent operation, violating the claimed invariant on a state reachable
by an interleaving at monotonically increasing times. -/
theorem claim_C4_counterexample :
    runRL .initial [(.record, 0), (.record, 7200000)] =
        ⟨[0, 7200000], some 7200000⟩ ∧
      ¬ withinHourWindow (runRL .initial [(.record, 0), (.record, 7200000)]) 7200000 := by
  constructor
  · rfl
  · decide

/-- The min-delay gate of `checkRateLimit` does not fire (so control reaches
the pruning step): either no previous request is recorded, or at least
`MIN_DELAY_MS` has elapsed (`lastRequestTime = 0` is skipped by the JS
truthiness guard). -/
def minDelayGatePasses (s : RateLimiterState) (now : Int) : Bool :=
  match s.lastRequestTime with
  | none => true
  | some last => !(last ≠ 0 && now - last < MIN_DELAY_MS)

/-- C4 (amended): the 1-hour bound on retained timestamps holds immediately
after any `checkRateLimit` call that reaches the pruning step (its min-delay
gate did not deny); it is not maintained by `recordRequest` nor across
arbitrary interleavings, since pruning is lazy. -/
theorem claim_C4_amended (s : RateLimiterState) (now : Int)
    (h : minDelayGatePasses s now = true) :
    ∀ t ∈ ((checkRateLimit s now).2).requests, now - t < 3600000 := by
  intro t ht
  have hhit : (match s.lastRequestTime with
      | none => false
      | some last => last ≠ 0 && now - last < MIN_DELAY_MS) = false := by
    cases hl : s.lastRequestTime with
    | none => rfl
    | some last =>
      simp only [minDelayGatePasses, hl, Bool.not_eq_true'] at h
      exact h
  simp only [checkRateLimit, hhit, if_false, Bool.false_eq_true] at ht
  split_ifs at ht <;>
    · simp only [List.mem_filter, decide_eq_true_eq] at ht
      omega

/-- C4 witness: after a `checkRateLimit` at t = 5000 on a state whose last
request was at t = 1000 (min-delay gate passes), every retained timestamp is
within the trailing hour. -/
theorem claim_C4_amended_witness :
    minDelayGatePasses ⟨[1000], some 1000⟩ 5000 = true ∧
      ∀ t ∈ ((checkRateLimit ⟨[1000], some 1000⟩ 5000).2).requests,
        (5000 : Int) - t < 3600000 :=
  ⟨by decide, claim_C4_amended ⟨[1000], some 1000⟩ 5000 (by decide)⟩

/-! ## Claim C7 — `checkRateLimit` against its reference decision

Window convention on both sides: a timestamp `t` counts toward a trailing
window of width `w` at time `now` exactly when `now - w < t`, matching the
strict `>` filters of the source. -/

/-- Reference decision function, following the claim's wording: min-delay
gate first (deny with the remaining wait, in seconds rounded up), then the
hour prune, then the ≥ 10-per-minute gate (wait 60), then the ≥ 50-per-hour
gate (wait 3600), else allow. -/
def checkRateLimitRef (s : RateLimiterState) (now : Int) : Bool × Int :=
  let hourly :=
    let kept := s.requests.filter (fun t => now - 60 * 60 * 1000 < t)
    if 10 ≤ (kept.filter (fun t => now - 60 * 1000 < t)).length then (false, 60)
    else if 50 ≤ kept.length then (false, 3600)
    else (true, 0)
  match s.lastRequestTime with
  | some last =>
    if now - last < 2000 then (false, ⌈(2000 - (now - last) : ℚ) / 1000⌉)
    else hourly
  | none => hourly

/-- `(a + 999) / 1000` (Euclidean division) is the ceiling of `a / 1000`. -/
theorem ceilDiv1000_eq (a : Int) : ceilDiv1000 a = ⌈(a : ℚ) / 1000⌉ := by
  unfold ceilDiv1000
  rw [eq_comm, Int.ceil_eq_iff]
  have h3 : 0 ≤ (a + 999) % 1000 := Int.emod_nonneg _ (by norm_num)
  have h2 : (a + 999) % 1000 < 1000 := Int.emod_lt_of_pos _ (by norm_num)
  have h4 : 1000 * ((a + 999) / 1000) + (a + 999) % 1000 = a + 999 :=
    Int.ediv_add_emod _ _
  constructor
  · rw [lt_div_iff₀ (by norm_num)]
    have : ((a + 999) / 1000 - 1) * 1000 < a := by omega
    exact_mod_cast this
  · rw [div_le_iff₀ (by norm_num)]
    have : a ≤ (a + 999) / 1000 * 1000 := by omega
    exact_mod_cast this

/-- C7: on every state whose stored last-request instant is a genuine
`Date.now()` value (positive — the JS truthiness guard treats `0` like
`null`), `checkRateLimit` decides exactly as the reference function: same
`allowed`, same `waitTime`, and `reason` is `null` precisely on allow. -/
theorem claim_C7_check_matches_reference (s : RateLimiterState) (now : Int)
    (hpos : ∀ last, s.lastRequestTime = some last → 0 < last) :
    ((checkRateLimit s now).1.allowed, (checkRateLimit s now).1.waitTime) =
        checkRateLimitRef s now ∧
      ((checkRateLimit s now).1.reason = none ↔
        (checkRateLimit s now).1.allowed = true) := by
  cases hl : s.lastRequestTime with
  | none =>
    simp only [checkRateLimit, checkRateLimitRef, hl, MIN_DELAY_MS,
      MAX_REQUESTS_PER_MINUTE, MAX_REQUESTS_PER_HOUR]
    norm_num
    split_ifs <;> simp
  | some last =>
    have hlast : 0 < last := hpos last hl
    simp only [checkRateLimit, checkRateLimitRef, hl, MIN_DELAY_MS,
      MAX_REQUESTS_PER_MINUTE, MAX_REQUESTS_PER_HOUR]
    by_cases hd : now - last < 2000
    · have hguard : (decide (last ≠ 0) && decide (now - last < 2000)) = true := by
        simp [hd, hlast.ne']
      rw [if_pos hguard, if_pos hd]
      refine ⟨?_, by simp⟩
      simp only [Option.getD_some, Prod.mk.injEq, true_and]
      have := ceilDiv1000_eq (2000 - (now - last))
      rw [this]
      norm_num
    · have hdec : decide (now - last < 2000) = false := by simp [hd]
      have hguard : (decide (last ≠ 0) && decide (now - last < 2000)) = false := by
        simp [hdec]
      rw [if_neg (by rw [hguard]; exact Bool.false_ne_true), if_neg hd]
      norm_num
      split_ifs <;> simp

/-- C7 witness: a check at t = 1500 with the last request at t = 1000 agrees
with the reference (it denies through the min-delay gate). -/
theorem claim_C7_check_matches_reference_witness :
    (∀ last, (RateLimiterState.mk [1000] (some 1000)).lastRequestTime = some last →
        0 < last) ∧
      (((checkRateLimit ⟨[1000], some 1000⟩ 1500).1.allowed,
          (checkRateLimit ⟨[1000], some 1000⟩ 1500).1.waitTime) =
          checkRateLimitRef ⟨[1000], some 1000⟩ 1500 ∧
        ((checkRateLimit ⟨[1000], some 1000⟩ 1500).1.reason = none ↔
          (checkRateLimit ⟨[1000], some 1000⟩ 1500).1.allowed = true)) :=
  ⟨fun last h => by simp only [Option.some.injEq] at h; omega,
   claim_C7_check_matches_reference ⟨[1000], some 1000⟩ 1500
     (fun last h => by simp only [Option.some.injEq] at h; omega)⟩

/-! ## Input guard (`src/utils/supabaseTest.js`, second half: `security.js`)

`sanitizeUserInput` and `validateFrenchSentence`.  The eight suspicious
regexes are encoded as element lists over a small pattern language mirroring
the constructs they use: case-insensitive literals, prefix-free alternation,
`\s+`, `\s*` and an optional trailing character.  JS regex notes:
* each alternation below is pairwise prefix-free (case-insensitively), so
  committing to the first alternative that strips is exactly the backtracking
  semantics of the JS engine;
* `\s+` is greedy, and every element that can follow it starts with a
  non-whitespace character, so consuming the maximal whitespace run is exact;
* the `/g`-flag statefulness of `test`/`replace` is irrelevant: the regex
  objects are rebuilt per call and `replace` resets `lastIndex`. -/

theorem length_dropWhile_le {α : Type} (p : α → Bool) (l : List α) :
    (l.dropWhile p).length ≤ l.length := by
  induction l with
  | nil => simp
  | cons c cs ih =>
    rw [List.dropWhile_cons]
    split
    · simp; omega
    · simp

/-- `String.prototype.trim`: drop JS whitespace from both ends. -/
def trimJs (cs : List Char) : List Char :=
  ((cs.dropWhile jsWs).reverse.dropWhile jsWs).reverse

/-- `replace(/\s+/g, ' ')`: rewrite every whitespace run to a single space.
`inWs` records whether the previous character was whitespace (run already
rewritten). -/
def collapseWsAux : Bool → List Char → List Char
  | _, [] => []
  | inWs, c :: cs =>
    if jsWs c then
      if inWs then collapseWsAux true cs
      else ' ' :: collapseWsAux true cs
    else c :: collapseWsAux false cs

def collapseWs (cs : List Char) : List Char := collapseWsAux false cs

/-- One element of a suspicious pattern. -/
inductive PatElem
  | lit (w : List Char)
  | alt (ws : List (List Char))
  | ws1
  | ws0
  | opt (c : Char)
  deriving Repr, DecidableEq

/-- Strip a case-insensitive literal from the front of the text. -/
def stripCI : List Char → List Char → Option (List Char)
  | [], cs => some cs
  | _ :: _, [] => none
  | p :: ps, c :: cs => if eqCI p c then stripCI ps cs else none

/-- First alternative (in JS source order) that strips. -/
def pickAlt : List (List Char) → List Char → Option (List Char)
  | [], _ => none
  | w :: ws, cs =>
    match stripCI w cs with
    | some r => some r
    | none => pickAlt ws cs

/-- Match a pattern at the start of the text, returning the unconsumed
suffix.  `opt` is greedy with one-step backtracking, as in the JS engine. -/
def matchElems : List PatElem → List Char → Option (List Char)
  | [], cs => some cs
  | .lit w :: es, cs => (stripCI w cs).bind (matchElems es)
  | .alt ws :: es, cs => (pickAlt ws cs).bind (matchElems es)
  | .ws1 :: es, cs =>
    match cs with
    | [] => none
    | c :: cs' => if jsWs c then matchElems es (cs'.dropWhile jsWs) else none
  | .ws0 :: es, cs => matchElems es (cs.dropWhile jsWs)
  | .opt c :: es, cs =>
    match cs with
    | [] => matchElems es []
    | d :: cs' =>
      if eqCI c d then
        match matchElems es cs' with
        | some r => some r
        | none => matchElems es (d :: cs')
      else matchElems es (d :: cs')

/-- `pattern.test(text)`: does the pattern match at some position? -/
def hasMatch : List PatElem → List Char → Bool
  | p, [] => (matchElems p []).isSome
  | p, c :: cs => (matchElems p (c :: cs)).isSome || hasMatch p cs

/-- Global regex replace (`String.replace` with a `/g` regex): scan left to
right, at each position splice in the marker for the leftmost match and
resume after it, otherwise keep the character.  `fuel` bounds the number of
steps; every step strictly shortens the text, so `fuel = cs.length` never
runs out (the fuel-exhausted branch returns the remaining text unchanged and
is unreachable).  The `rest.length ≤ cs.length` test guards the empty-match
case of JS `replace` (advance one character); no pattern below matches the
empty string, so that branch is likewise unreachable here. -/
def replaceAllPatAux (p : List PatElem) (marker : List Char) :
    Nat → List Char → List Char
  | _, [] => []
  | 0, cs => cs
  | fuel + 1, c :: cs =>
    match matchElems p (c :: cs) with
    | some rest =>
      if rest.length ≤ cs.length then marker ++ replaceAllPatAux p marker fuel rest
      else marker ++ c :: replaceAllPatAux p marker fuel cs
    | none => c :: replaceAllPatAux p marker fuel cs

def replaceAllPat (p : List PatElem) (marker : List Char) (cs : List Char) :
    List Char :=
  replaceAllPatAux p marker cs.length cs

/-- `/ignore\s+(previous|above|all)\s+instructions?/gi` -/
def patIgnore : List PatElem :=
  [.lit "ignore".toList, .ws1, .alt ["previous".toList, "above".toList, "all".toList],
   .ws1, .lit "instruction".toList, .opt 's']

/-- `/system\s+prompt/gi` -/
def patSystemPrompt : List PatElem :=
  [.lit "system".toList, .ws1, .lit "prompt".toList]

/-- `/you\s+are\s+(now|actually)/gi` -/
def patYouAre : List PatElem :=
  [.lit "you".toList, .ws1, .lit "are".toList, .ws1, .alt ["now".toList, "actually".toList]]

/-- `/forget\s+(everything|all|previous)/gi` -/
def patForget : List PatElem :=
  [.lit "forget".toList, .ws1, .alt ["everything".toList, "all".toList, "previous".toList]]

/-- `/new\s+instructions?:/gi` -/
def patNewInstructions : List PatElem :=
  [.lit "new".toList, .ws1, .lit "instruction".toList, .opt 's', .lit ":".toList]

/-- `/role\s*:\s*system/gi` -/
def patRoleSystem : List PatElem :=
  [.lit "role".toList, .ws0, .lit ":".toList, .ws0, .lit "system".toList]

/-- `/\[system\]/gi` -/
def patBracketSystem : List PatElem :=
  [.lit "[system]".toList]

/-- `/assistant\s+mode/gi` -/
def patAssistantMode : List PatElem :=
  [.lit "assistant".toList, .ws1, .lit "mode".toList]

/-- The `suspiciousPatterns` array, in source order. -/
def suspiciousPatterns : List (List PatElem) :=
  [patIgnore, patSystemPrompt, patYouAre, patForget,
   patNewInstructions, patRoleSystem, patBracketSystem, patAssistantMode]

/-- The replacement text `'[redacted]'`. -/
def redactedMarker : List Char := "[redacted]".toList

/-- `sanitizeUserInput(input)`; a thrown `Error(msg)` becomes `.error msg`.
(The `typeof input !== 'string'` arm is vacuous here: the argument type
already guarantees a string.) -/
def sanitizeUserInput (input : String) : Except String String :=
  if input = "" then .error "Invalid input"
  else
    let sanitized := collapseWs (trimJs input.toList)
    let sanitized :=
      if suspiciousPatterns.any (fun p => hasMatch p sanitized) then
        suspiciousPatterns.foldl (fun acc p => replaceAllPat p redactedMarker acc) sanitized
      else sanitized
    if 500 < sanitized.length then .error "Sentence too long (max 500 characters)"
    else if sanitized.length < 3 then .error "Sentence too short"
    else .ok (String.mk sanitized)

/-! ## `validateFrenchSentence` -/

def frenchAccentedLower : List Char :=
  ['à', 'â', 'ä', 'æ', 'ç', 'é', 'è', 'ê', 'ë', 'ï', 'î', 'ô', 'ù', 'û', 'ü', 'ÿ', 'œ']

def frenchAccentedUpper : List Char :=
  ['À', 'Â', 'Ä', 'Æ', 'Ç', 'É', 'È', 'Ê', 'Ë', 'Ï', 'Î', 'Ô', 'Ù', 'Û', 'Ü', 'Ÿ', 'Œ']

/-- Membership in the class `[a-zàâäæçéèêëïîôùûüÿœ]` under `/i`
canonicalization (a non-ASCII input char matches exactly when its upper-case
image equals that of a class char, which adds the upper-case variants and
nothing else). -/
def frenchLetter (c : Char) : Bool :=
  ('a' ≤ c && c ≤ 'z') || ('A' ≤ c && c ≤ 'Z') ||
    frenchAccentedLower.contains c || frenchAccentedUpper.contains c

/-- `/[a-zàâäæçéèêëïîôùûüÿœ]/i.test(input)` -/
def hasLetters (input : String) : Bool := input.toList.any frenchLetter

/-- `!/^[^a-zàâäæçéèêëïîôùûüÿœ]+$/i.test(input)`: the anchored regex matches
exactly the non-empty all-non-letter strings. -/
def notOnlySpecial (input : String) : Bool :=
  !(!input.toList.isEmpty && input.toList.all (fun c => !frenchLetter c))

/-- `(input.match(/[^a-zàâäæçéèêëïîôùûüÿœ\s'-]/gi) || []).length` -/
def specialCharCount (input : String) : ℕ :=
  (input.toList.filter
    (fun c => !(frenchLetter c || jsWs c || c = '\'' || c = '-'))).length

/-- `specialCharRatio < 0.3`, cross-multiplied over ℕ.  On the empty string
the JS expression is `0/0 < 0.3`, i.e. `NaN < 0.3`, which is `false`; here
`0 < 0` is likewise `false`, so the NaN behaviour is captured exactly. -/
def notTooManySpecial (input : String) : Bool :=
  specialCharCount input * 10 < input.length * 3

def validateFrenchSentence (input : String) : Bool :=
  hasLetters input && notOnlySpecial input && notTooManySpecial input

/-! ## Claim C10 — `validateFrenchSentence` is total and false on `""` -/

/-- C10: `validateFrenchSentence` is a total boolean function; on the empty
string the special-character comparison (JS `NaN < 0.3`) is false, and the
function returns `false` rather than faulting. -/
theorem claim_C10_validate_total :
    validateFrenchSentence "" = false ∧
      notTooManySpecial "" = false ∧
      ∀ input : String,
        validateFrenchSentence input = true ∨ validateFrenchSentence input = false :=
  ⟨rfl, rfl, fun input => Bool.eq_false_or_eq_true (validateFrenchSentence input)⟩

/-! ## Claim C9 — sanitization itself can overflow the 500-character cap -/

set_option maxRecDepth 100000

/-- C9: a raw input of exactly 500 characters — 62 copies of the 8-character
pattern `[system]` followed by `abcd` — is rejected as too long: each match
is replaced by the 10-character marker `[redacted]`, yielding 624 characters,
and the cap is enforced on the post-redaction text. -/
theorem claim_C9_redaction_overflow :
    (String.join (List.replicate 62 "[system]") ++ "abcd").length = 500 ∧
      sanitizeUserInput (String.join (List.replicate 62 "[system]") ++ "abcd") =
        .error "Sentence too long (max 500 characters)" := by
  constructor
  · decide
  · rfl

/-! ## Grok provider, AI service and submission pipeline
(`src/unnamed/part_006`, `src/utils/authService.js` second half:
`aiService.js`, `src/utils/storage.js`, `src/screens/PracticeScreen.js`) -/

def MODEL_NAME : String := "grok-4-fast-non-reasoning"

/-- `buildPrompt(verb, tense, userSentence)` — the template literal of the
Grok provider, verbatim (template newlines written as `\n`). -/
def buildPrompt (verb tense userSentence : String) : String :=
  "You are a French language teacher evaluating a student's sentence.\n\n" ++
  "Verb (infinitive): " ++ verb ++ "\n" ++
  "Required tense: " ++ tense ++ "\n" ++
  "Student's sentence: \"" ++ userSentence ++ "\"\n\n" ++
  "Analyze the sentence thoroughly and respond with ONLY valid JSON (no markdown, no extra text) in this exact format:\n" ++
  "\x7b\n" ++
  "  \"isCorrect\": true or false (whether the verb is conjugated correctly),\n" ++
  "  \"correctConjugation\": \"the correct conjugation if wrong, or empty string if correct\",\n" ++
  "  \"verbAnalysis\": \"brief explanation of the verb conjugation\",\n" ++
  "  \"grammarIssues\": [\"list of any grammar or structure issues, or empty array if none\"],\n" ++
  "  \"semanticAnalysis\": \"evaluate if the sentence sounds natural to a native French speaker, or if there's a more idiomatic way to express the same idea\",\n" ++
  "  \"alternativePhrasings\": [\"1-2 more natural French alternatives, or empty array if the sentence is already natural\"],\n" ++
  "  \"suggestion\": \"one helpful tip for improvement\",\n" ++
  "  \"encouragement\": \"brief positive comment\"\n" ++
  "\x7d\n\n" ++
  "Be constructive, encouraging, and focus on helping the student sound more like a native French speaker."

/-- The `usage` object of a provider response; a field is `none` when absent.
The `||` fallbacks in the source also treat a present `0` as falsy. -/
structure UsageReport where
  prompt_tokens : Option ℕ
  completion_tokens : Option ℕ
  deriving Repr, DecidableEq

/-- `x || d` for an optional JS number (absent and `0` are falsy). -/
def jsOrNat : Option ℕ → ℕ → ℕ
  | some n, d => if n = 0 then d else n
  | none, d => d

/-- `x || d` for an optional JS string (absent and `''` are falsy). -/
def jsOrStr : Option String → String → String
  | some s, d => if s = "" then d else s
  | none, d => d

/-- The provider's HTTP response, as far as the Grok provider inspects it:
`ok`/`status`, `errorData.error?.message` for failures, and
`choices[0]?.message?.content` / `usage` for successes. -/
structure GrokResponse where
  ok : Bool
  status : ℕ
  errorMessage : Option String
  content : Option String
  usage : Option UsageReport
  deriving Repr, DecidableEq

/-- Result of a provider call: the returned/thrown value, the ledger after
the call, whether `fetch` was reached, and whether `recordUsage` was
invoked. -/
structure GrokOutcome where
  result : Except String String
  ledger : UsageStats
  networkAttempted : Bool
  usageRecorded : Bool
  deriving Repr

/-- `grokProvider.evaluateSentence(verb, tense, userSentence, apiKey)`.
`response` stands for the opaque network reply, `ledger` for the persisted
usage state that `recordUsage` reads and rewrites (its `try/catch` swallows
persistence errors, which are outside this model).  `parseAIResponse` never
throws (it has a fallback object), so a reached parse is returned as
`.ok aiMessage`, the parse being pass-through for this layer. -/
def grokEvaluateSentence (verb tense userSentence : String)
    (response : GrokResponse) (ledger : UsageStats) (now : Int) : GrokOutcome :=
  match sanitizeUserInput userSentence with
  | .error e => ⟨.error e, ledger, false, false⟩
  | .ok sanitizedSentence =>
    if !validateFrenchSentence sanitizedSentence then
      ⟨.error "Input does not appear to be a valid sentence", ledger, false, false⟩
    else
      let prompt := buildPrompt verb tense sanitizedSentence
      if !response.ok then
        ⟨.error (jsOrStr response.errorMessage s!"API Error: {response.status}"),
         ledger, true, false⟩
      else
        match response.content with
        | none => ⟨.error "No response from AI", ledger, true, false⟩
        | some aiMessage =>
          if aiMessage = "" then ⟨.error "No response from AI", ledger, true, false⟩
          else
            match response.usage with
            | some usage =>
              ⟨.ok aiMessage,
               recordUsage ledger MODEL_NAME
                 (jsOrNat usage.prompt_tokens (estimateTokens prompt))
                 (jsOrNat usage.completion_tokens (estimateTokens aiMessage)) now,
               true, true⟩
            | none => ⟨.ok aiMessage, ledger, true, false⟩

/-- `storage.getCurrentProvider()`: the stored value, defaulting to
`'grok'` when absent or empty (and on read errors, which look the same). -/
def getCurrentProvider (stored : Option String) : String :=
  match stored with
  | some p => if p = "" then "grok" else p
  | none => "grok"

/-- `storage.getApiKey(provider)`: `null` when no key map is stored, else
`apiKeys[provider] || null`. -/
def getApiKey (apiKeys : Option (List (String × String))) (provider : String) :
    Option String :=
  match apiKeys with
  | none => none
  | some m =>
    match m.lookup provider with
    | some k => if k = "" then none else some k
    | none => none

/-- `aiService.evaluateSentence(verb, tense, userSentence)`: resolve the
provider and its key, throw `No API key configured...` when the key is
absent, dispatch to the Grok provider, or throw `Unknown AI provider`. -/
def aiEvaluateSentence (storedProvider : Option String)
    (apiKeys : Option (List (String × String))) (verb tense userSentence : String)
    (response : GrokResponse) (ledger : UsageStats) (now : Int) : GrokOutcome :=
  let provider := getCurrentProvider storedProvider
  match getApiKey apiKeys provider with
  | none => ⟨.error "No API key configured. Please add one in Settings.", ledger, false, false⟩
  | some _ =>
    if provider = "grok" then
      grokEvaluateSentence verb tense userSentence response ledger now
    else
      ⟨.error s!"Unknown AI provider: {provider}", ledger, false, false⟩

/-- `String.prototype.includes`. -/
def hasSubstr (sub : List Char) : List Char → Bool
  | [] => sub.isEmpty
  | c :: t => List.isPrefixOf sub (c :: t) || hasSubstr sub t

def jsIncludes (s sub : String) : Bool := hasSubstr sub.toList s.toList

/-- The user-visible outcome of one `handleSubmit` run (which `Alert` is
shown, or the feedback rendered). -/
inductive SubmitOutcome
  | emptyInputAlert
  | rateLimitedAlert (reason : Option String)
  | budgetAlert (reason : Option String)
  | invalidInputAlert (message : String)
  | apiKeyAlert
  | invalidKeyAlert
  | providerRateAlert
  | connectionAlert
  | feedback (message : String)
  deriving Repr, DecidableEq

/-- The `catch` block of `handleSubmit`: route by `error.message.includes`. -/
def classifySubmitError (message : String) : SubmitOutcome :=
  if jsIncludes message "Invalid input" then .invalidInputAlert message
  else if jsIncludes message "No API key" then .apiKeyAlert
  else if jsIncludes message "API Error: 401" then .invalidKeyAlert
  else if jsIncludes message "API Error: 429" then .providerRateAlert
  else .connectionAlert

/-- The environment a submission runs against: configuration reads, the
budget-ledger read, and the opaque provider reply. -/
structure SubmitEnv where
  storedProvider : Option String
  apiKeys : Option (List (String × String))
  budgetLimits : BudgetInput
  ledgerRead : LedgerRead
  grokResponse : GrokResponse
  isoNow : String
  deriving Repr, DecidableEq

structure SubmitResult where
  outcome : SubmitOutcome
  rateState : RateLimiterState
  networkAttempted : Bool
  ledger : UsageStats
  deriving Repr, DecidableEq

/-- `PracticeScreen.handleSubmit()`: empty-input guard, `checkRateLimit`,
`getBudgetLimits`/`checkBudget`, `recordRequest`, then
`aiService.evaluateSentence`, with the `catch` classification.  (The
`incrementPracticeCount`/`setAiFeedback` UI effects after success are out of
scope.) -/
def handleSubmit (env : SubmitEnv) (verb tense userSentence : String)
    (rs : RateLimiterState) (ledger : UsageStats) (now : Int) : SubmitResult :=
  if trimJs userSentence.toList = [] then ⟨.emptyInputAlert, rs, false, ledger⟩
  else
    let checked := checkRateLimit rs now
    if !checked.1.allowed then
      ⟨.rateLimitedAlert checked.1.reason, checked.2, false, ledger⟩
    else
      let budgetCheck := checkBudget env.budgetLimits env.ledgerRead env.isoNow
      if !budgetCheck.allowed then
        ⟨.budgetAlert budgetCheck.reason, checked.2, false, ledger⟩
      else
        let rs2 := recordRequest checked.2 now
        let r := aiEvaluateSentence env.storedProvider env.apiKeys
          verb tense userSentence env.grokResponse ledger now
        match r.result with
        | .ok feedbackMessage =>
          ⟨.feedback feedbackMessage, rs2, r.networkAttempted, r.ledger⟩
        | .error message =>
          ⟨classifySubmitError message, rs2, r.networkAttempted, r.ledger⟩



/-- With no stored ledger, `checkBudget` under the default limits allows. -/
theorem checkBudget_absent_allowed (isoNow : String) :
    (checkBudget {} (.absent) isoNow).allowed = true := by
  norm_num [checkBudget, getUsageStats, mergeBudget, emptyUsageStats]

/-! ## Claim C1 — a submission with no API key

`handleSubmit` calls `rateLimiter.recordRequest()` (line 96) before
`aiService.evaluateSentence` (line 99); the `NoApiKey` throw happens inside
the latter, before any network call, but after the rate limiter has been
mutated.  So "before any network call" holds and "before `recordRequest`"
does not. -/

/-- C1 counterexample: with no key stored, a fresh rate limiter and a clear
budget, submitting "Je mange une pomme" at t = 1000 produces the no-API-key
alert with no network call, yet the rate limiter has recorded the request:
its state is `⟨[1000], some 1000⟩`, not the unchanged initial state the
claim requires. -/
theorem claim_C1_counterexample :
    (handleSubmit ⟨none, none, {}, .absent, ⟨true, 200, none, some "ok!", none⟩, "2026-01-01"⟩
        "manger" "Présent" "Je mange une pomme" .initial (emptyUsageStats "2026-01-01") 1000) =
      ⟨.apiKeyAlert, ⟨[1000], some 1000⟩, false, emptyUsageStats "2026-01-01"⟩ ∧
      (⟨[1000], some 1000⟩ : RateLimiterState) ≠ .initial := by
  refine ⟨?_, by decide⟩
  unfold handleSubmit
  rw [if_neg (by decide)]
  have hr : (checkRateLimit .initial 1000).1.allowed = true := by decide
  simp only [hr, Bool.not_true, Bool.false_eq_true, if_false,
    checkBudget_absent_allowed, aiEvaluateSentence]
  rfl

/-- C1 (amended): whenever no credential is stored for the active provider
and the rate-limit and budget gates clear, the submission fails with the
no-API-key alert before any network call is attempted — but after
`handleSubmit` has already invoked `recordRequest`, so the rate limiter gains
the submission's timestamp (and the usage ledger is untouched). -/
theorem claim_C1_noApiKey (env : SubmitEnv) (verb tense userSentence : String)
    (rs : RateLimiterState) (ledger : UsageStats) (now : Int)
    (hNonEmpty : trimJs userSentence.toList ≠ [])
    (hRate : (checkRateLimit rs now).1.allowed = true)
    (hBudget : (checkBudget env.budgetLimits env.ledgerRead env.isoNow).allowed = true)
    (hNoKey : getApiKey env.apiKeys (getCurrentProvider env.storedProvider) = none) :
    handleSubmit env verb tense userSentence rs ledger now =
      ⟨.apiKeyAlert, recordRequest (checkRateLimit rs now).2 now, false, ledger⟩ := by
  unfold handleSubmit
  rw [if_neg hNonEmpty]
  simp only [hRate, Bool.not_true, Bool.false_eq_true, if_false, hBudget,
    aiEvaluateSentence, hNoKey]
  rfl

/-- C1 witness: the amended statement at the counterexample's concrete
input. -/
theorem claim_C1_noApiKey_witness :
    trimJs "Je mange une pomme".toList ≠ [] ∧
      (checkRateLimit .initial 1000).1.allowed = true ∧
      (checkBudget ({} : BudgetInput) (.absent) "2026-01-01").allowed = true ∧
      getApiKey none (getCurrentProvider none) = none ∧
      handleSubmit ⟨none, none, {}, .absent, ⟨true, 200, none, some "ok!", none⟩, "2026-01-01"⟩
          "manger" "Présent" "Je mange une pomme" .initial (emptyUsageStats "2026-01-01") 1000 =
        ⟨.apiKeyAlert, recordRequest (checkRateLimit .initial 1000).2 1000, false,
         emptyUsageStats "2026-01-01"⟩ :=
  ⟨by decide, by decide, checkBudget_absent_allowed "2026-01-01", rfl,
   claim_C1_noApiKey
     ⟨none, none, {}, .absent, ⟨true, 200, none, some "ok!", none⟩, "2026-01-01"⟩
     "manger" "Présent" "Je mange une pomme" .initial (emptyUsageStats "2026-01-01") 1000
     (by decide) (by decide) (checkBudget_absent_allowed "2026-01-01") rfl⟩

/-! ## Claim C5 — usage recording on successful provider responses

The source guards the whole recording block with `if (usage)`: the
`estimateTokens` fallbacks apply per missing field once a usage object is
present, but a successful response whose `usage` is entirely absent performs
no ledger update at all. -/

/-- C5 counterexample: a successful response ("Bon travail", no `usage`
object) completes with `.ok`, yet `recordUsage` is never invoked and the
ledger is unchanged — no estimation from the prompt and returned text
happens. -/
theorem claim_C5_counterexample :
    (grokEvaluateSentence "manger" "Présent" "Je mange une pomme"
        ⟨true, 200, none, some "Bon travail", none⟩ (emptyUsageStats "2026-01-01") 1000).result =
        .ok "Bon travail" ∧
      (grokEvaluateSentence "manger" "Présent" "Je mange une pomme"
        ⟨true, 200, none, some "Bon travail", none⟩ (emptyUsageStats "2026-01-01") 1000).usageRecorded =
        false ∧
      (grokEvaluateSentence "manger" "Présent" "Je mange une pomme"
        ⟨true, 200, none, some "Bon travail", none⟩ (emptyUsageStats "2026-01-01") 1000).ledger =
        emptyUsageStats "2026-01-01" ∧
      (grokEvaluateSentence "manger" "Présent" "Je mange une pomme"
        ⟨true, 200, none, some "Bon travail", none⟩ (emptyUsageStats "2026-01-01") 1000).networkAttempted =
        true :=
  ⟨rfl, rfl, rfl, rfl⟩

/-- C5 (amended): on a successful provider response, when the usage object
is present a usage record is appended whose counts are the reported
per-field values, each individually falling back to an estimate (from the
outbound prompt resp. the returned text) when absent or 0; when the usage
object is entirely absent, the call completes successfully with no ledger
update attempted. -/
theorem claim_C5_usage_recording (verb tense userSentence sanitized aiMessage : String)
    (response : GrokResponse) (ledger : UsageStats) (now : Int)
    (hSan : sanitizeUserInput userSentence = .ok sanitized)
    (hVal : validateFrenchSentence sanitized = true)
    (hOk : response.ok = true)
    (hContent : response.content = some aiMessage)
    (hMsg : aiMessage ≠ "") :
    (response.usage = none →
      grokEvaluateSentence verb tense userSentence response ledger now =
        ⟨.ok aiMessage, ledger, true, false⟩) ∧
    (∀ u, response.usage = some u →
      grokEvaluateSentence verb tense userSentence response ledger now =
        ⟨.ok aiMessage,
         recordUsage ledger MODEL_NAME
           (jsOrNat u.prompt_tokens (estimateTokens (buildPrompt verb tense sanitized)))
           (jsOrNat u.completion_tokens (estimateTokens aiMessage)) now,
         true, true⟩) := by
  constructor
  · intro hUsage
    unfold grokEvaluateSentence
    rw [hSan]
    simp only [hVal, Bool.not_true, Bool.false_eq_true, if_false, hOk,
      hContent, hUsage]
    rw [if_neg hMsg]
  · intro u hUsage
    unfold grokEvaluateSentence
    rw [hSan]
    simp only [hVal, Bool.not_true, Bool.false_eq_true, if_false, hOk,
      hContent, hUsage]
    rw [if_neg hMsg]

/-- C5 witness: a successful response reporting 100/50 tokens records usage
with exactly those counts. -/
theorem claim_C5_usage_recording_witness :
    sanitizeUserInput "Je mange une pomme" = .ok "Je mange une pomme" ∧
      validateFrenchSentence "Je mange une pomme" = true ∧
      (GrokResponse.mk true 200 none (some "Bon travail") (some ⟨some 100, some 50⟩)).ok = true ∧
      (GrokResponse.mk true 200 none (some "Bon travail") (some ⟨some 100, some 50⟩)).content =
        some "Bon travail" ∧
      "Bon travail" ≠ "" ∧
      grokEvaluateSentence "manger" "Présent" "Je mange une pomme"
          (GrokResponse.mk true 200 none (some "Bon travail") (some ⟨some 100, some 50⟩))
          (emptyUsageStats "2026-01-01") 1000 =
        ⟨.ok "Bon travail",
         recordUsage (emptyUsageStats "2026-01-01") MODEL_NAME
           (jsOrNat (some 100) (estimateTokens (buildPrompt "manger" "Présent" "Je mange une pomme")))
           (jsOrNat (some 50) (estimateTokens "Bon travail")) 1000,
         true, true⟩ :=
  ⟨rfl, by decide, rfl, rfl, by decide,
   (claim_C5_usage_recording "manger" "Présent" "Je mange une pomme" "Je mange une pomme"
       "Bon travail" (GrokResponse.mk true 200 none (some "Bon travail") (some ⟨some 100, some 50⟩))
       (emptyUsageStats "2026-01-01") 1000 rfl (by decide) rfl rfl (by decide)).2
     ⟨some 100, some 50⟩ rfl⟩

/-! ## Toward idempotence of `sanitizeUserInput` (claim C6)

Strategy: on whitespace-normalized text every suspicious pattern matches
exactly when one of finitely many concrete realization strings occurs
(case-insensitively), and none of those strings can overlap the redaction
marker; redaction output therefore contains no match of any pattern, and is
still whitespace-normalized, so a second `sanitizeUserInput` is the
identity on it. -/

def lower (cs : List Char) : List Char := cs.map toLowerA

theorem char_le_toNat {a b : Char} : a ≤ b ↔ a.toNat ≤ b.toNat := by
  rw [Char.le_def]
  exact ⟨fun h => h, fun h => h⟩

theorem char_toNat_ofNat {n : ℕ} (h : n < 0xd800) : (Char.ofNat n).toNat = n := by
  have hv : n.isValidChar := Or.inl h
  simp only [Char.ofNat, dif_pos hv]
  rfl

theorem toLowerA_upper {c : Char} (h1 : 'A' ≤ c) (h2 : c ≤ 'Z') :
    (toLowerA c).toNat = c.toNat + 32 := by
  unfold toLowerA
  rw [if_pos (by simp [h1, h2])]
  have : c.toNat ≤ 90 := char_le_toNat.mp h2
  exact char_toNat_ofNat (by omega)

theorem toLowerA_id {c : Char} (h : ¬('A' ≤ c ∧ c ≤ 'Z')) : toLowerA c = c := by
  unfold toLowerA
  rw [if_neg (by simpa using h)]

theorem toLowerA_idem (c : Char) : toLowerA (toLowerA c) = toLowerA c := by
  by_cases h : 'A' ≤ c ∧ c ≤ 'Z'
  · have hn := toLowerA_upper h.1 h.2
    have h65 : 65 ≤ c.toNat := char_le_toNat.mp h.1
    have h90 : c.toNat ≤ 90 := char_le_toNat.mp h.2
    apply toLowerA_id
    rintro ⟨hA, _⟩
    have := char_le_toNat.mp hA
    change (65 : ℕ) ≤ _ at this
    rw [hn] at this
    have h2 := char_le_toNat.mp ‹toLowerA c ≤ 'Z'›
    rw [hn] at h2
    change _ ≤ (90 : ℕ) at h2
    omega
  · rw [toLowerA_id h, toLowerA_id h]

theorem toLowerA_eq_space {c : Char} : toLowerA c = ' ' ↔ c = ' ' := by
  constructor
  · intro h
    by_cases hc : 'A' ≤ c ∧ c ≤ 'Z'
    · exfalso
      have hn := toLowerA_upper hc.1 hc.2
      rw [h] at hn
      have := char_le_toNat.mp hc.2
      change c.toNat ≤ 90 at this
      have h65 := char_le_toNat.mp hc.1
      change 65 ≤ c.toNat at h65
      change (32 : ℕ) = c.toNat + 32 at hn
      omega
    · rwa [toLowerA_id hc] at h
  · intro h
    subst h
    rfl

theorem lower_append (a b : List Char) : lower (a ++ b) = lower a ++ lower b := by
  simp [lower]

theorem lower_cons (c : Char) (cs : List Char) :
    lower (c :: cs) = toLowerA c :: lower cs := rfl

theorem lower_length (a : List Char) : (lower a).length = a.length := by
  simp [lower]

theorem lower_idem (a : List Char) : lower (lower a) = lower a := by
  induction a with
  | nil => rfl
  | cons c cs ih => simp only [lower_cons, toLowerA_idem, ih]

/-- Characterization of `stripCI`: it consumes exactly a case-insensitive
copy of the pattern word and returns the rest. -/
theorem stripCI_some_iff (ps w r : List Char) :
    stripCI ps w = some r ↔ ∃ u, w = u ++ r ∧ lower u = lower ps := by
  induction ps generalizing w with
  | nil =>
    simp only [stripCI, Option.some.injEq]
    constructor
    · rintro rfl
      exact ⟨[], rfl, rfl⟩
    · rintro ⟨u, rfl, hu⟩
      have hu0 : u = [] := by
        have := congrArg List.length hu
        simp [lower_length] at this
        simpa using this
      simp [hu0]
  | cons p ps ih =>
    cases w with
    | nil =>
      simp only [stripCI]
      constructor
      · intro h
        exact absurd h (by simp)
      · rintro ⟨u, hu, hlu⟩
        have := congrArg List.length hu
        have hl := congrArg List.length hlu
        simp [lower_length] at this hl
        omega
    | cons c cs =>
      simp only [stripCI]
      by_cases he : eqCI p c
      · rw [if_pos he, ih]
        unfold eqCI at he
        simp only [decide_eq_true_eq] at he
        constructor
        · rintro ⟨u, rfl, hu⟩
          exact ⟨c :: u, rfl, by simp [lower_cons, hu, he]⟩
        · rintro ⟨u, hu, hlu⟩
          cases u with
          | nil =>
            have := congrArg List.length hlu
            simp [lower_length] at this
          | cons u0 us =>
            simp only [List.cons_append, List.cons.injEq] at hu
            refine ⟨us, hu.2, ?_⟩
            simp only [lower_cons, List.cons.injEq] at hlu
            exact hlu.2
      · rw [if_neg he]
        unfold eqCI at he
        simp only [decide_eq_true_eq] at he
        constructor
        · intro h
          exact absurd h (by simp)
        · rintro ⟨u, hu, hlu⟩
          cases u with
          | nil =>
            have := congrArg List.length hlu
            simp [lower_length] at this
          | cons u0 us =>
            simp only [List.cons_append, List.cons.injEq] at hu
            simp only [lower_cons, List.cons.injEq] at hlu
            exact absurd hlu.1.symm (by rw [hu.1] at he; exact he)

theorem stripCI_suffix {ps w r : List Char} (h : stripCI ps w = some r) : r <:+ w := by
  obtain ⟨u, rfl, -⟩ := (stripCI_some_iff ps w r).mp h
  exact ⟨u, rfl⟩

theorem pickAlt_suffix {ws : List (List Char)} {w r : List Char}
    (h : pickAlt ws w = some r) : r <:+ w := by
  induction ws with
  | nil => simp [pickAlt] at h
  | cons wd ws ih =>
    simp only [pickAlt] at h
    cases hs : stripCI wd w with
    | some r' =>
      rw [hs] at h
      cases h
      exact stripCI_suffix hs
    | none =>
      rw [hs] at h
      exact ih h

theorem dropWhile_suffix' (p : Char → Bool) (l : List Char) : l.dropWhile p <:+ l := by
  induction l with
  | nil => simp
  | cons c cs ih =>
    rw [List.dropWhile_cons]
    split
    · exact ih.trans (List.suffix_cons c cs)
    · exact List.suffix_rfl

theorem matchElems_suffix {p : List PatElem} {w r : List Char}
    (h : matchElems p w = some r) : r <:+ w := by
  induction p generalizing w with
  | nil =>
    simp only [matchElems, Option.some.injEq] at h
    subst h
    exact List.suffix_rfl
  | cons e es ih =>
    cases e with
    | lit wd =>
      simp only [matchElems, Option.bind_eq_some] at h
      obtain ⟨w1, hs, hm⟩ := h
      exact (ih hm).trans (stripCI_suffix hs)
    | alt ws =>
      simp only [matchElems, Option.bind_eq_some] at h
      obtain ⟨w1, hs, hm⟩ := h
      exact (ih hm).trans (pickAlt_suffix hs)
    | ws1 =>
      cases w with
      | nil => simp [matchElems] at h
      | cons c cs =>
        simp only [matchElems] at h
        split at h
        · exact (ih h).trans ((dropWhile_suffix' jsWs cs).trans (List.suffix_cons c cs))
        · exact absurd h (by simp)
    | ws0 =>
      simp only [matchElems] at h
      exact (ih h).trans (dropWhile_suffix' jsWs w)
    | opt c =>
      cases w with
      | nil =>
        simp only [matchElems] at h
        exact ih h
      | cons d cs =>
        simp only [matchElems] at h
        split at h
        · cases hm : matchElems es cs with
          | some r' =>
            rw [hm] at h
            cases h
            exact (ih hm).trans (List.suffix_cons d cs)
          | none =>
            rw [hm] at h
            exact ih h
        · exact ih h

/-! Whitespace-normalized text: every whitespace character is a plain space
and no two spaces are adjacent.  This is what `collapseWs ∘ trimJs`
produces, and what keeps `\s+`/`\s*` matching local. -/

def normedChars (cs : List Char) : Bool := cs.all (fun c => !jsWs c || c == ' ')

def noAdjSpaces : List Char → Bool
  | c :: d :: rest => !(c == ' ' && d == ' ') && noAdjSpaces (d :: rest)
  | _ => true

def normed (cs : List Char) : Bool := normedChars cs && noAdjSpaces cs

theorem normed_tail {c : Char} {cs : List Char} (h : normed (c :: cs) = true) :
    normed cs = true := by
  simp only [normed, normedChars, noAdjSpaces, Bool.and_eq_true, List.all_cons] at h ⊢
  cases cs with
  | nil => simp [noAdjSpaces]
  | cons d rest =>
    simp only [noAdjSpaces, Bool.and_eq_true, List.all_cons] at h ⊢
    exact ⟨⟨h.1.2.1, h.1.2.2⟩, h.2.2⟩

theorem normed_suffix {r w : List Char} (hs : r <:+ w) (h : normed w = true) :
    normed r = true := by
  obtain ⟨u, rfl⟩ := hs
  induction u with
  | nil => exact h
  | cons c cs ih => exact ih (normed_tail h)

theorem normed_head_ws {c : Char} {cs : List Char} (h : normed (c :: cs) = true)
    (hws : jsWs c = true) : c = ' ' := by
  simp only [normed, normedChars, List.all_cons, Bool.and_eq_true] at h
  have := h.1.1
  rw [hws] at this
  simpa using this

/-- In normalized text, the character after a space is not whitespace, so the
greedy `\s+`/`\s*` tail drop is a no-op. -/
theorem normed_dropWhile_after_space {c : Char} {cs : List Char}
    (h : normed (c :: cs) = true) (hws : jsWs c = true) :
    cs.dropWhile jsWs = cs := by
  cases cs with
  | nil => rfl
  | cons d rest =>
    have hc : c = ' ' := normed_head_ws h hws
    rw [List.dropWhile_cons, if_neg]
    simp only [Bool.not_eq_true]
    by_contra hd
    simp only [Bool.not_eq_false] at hd
    have hd' : d = ' ' := normed_head_ws (normed_tail h) hd
    subst hc hd'
    simp only [normed, noAdjSpaces, Bool.and_eq_true] at h
    simpa using h.2.1

theorem normed_dropWhile_head_not_ws {w : List Char}
    (h : ∀ c cs, w = c :: cs → jsWs c = false) :
    w.dropWhile jsWs = w := by
  cases w with
  | nil => rfl
  | cons c cs =>
    rw [List.dropWhile_cons, if_neg]
    simp [h c cs rfl]

/-- The concrete strings (lower-cased) that a pattern can match on
normalized text: `\s+` contributes exactly one space, `\s*` zero or one,
`x?` the character or nothing. -/
def reals : List PatElem → List (List Char)
  | [] => [[]]
  | .lit w :: es => (reals es).map (fun v => w ++ v)
  | .alt ws :: es => (ws.map (fun wd => (reals es).map (fun v => wd ++ v))).flatten
  | .ws1 :: es => (reals es).map (fun v => ' ' :: v)
  | .ws0 :: es => reals es ++ (reals es).map (fun v => ' ' :: v)
  | .opt c :: es => (reals es).map (fun v => c :: v) ++ reals es

def isLowerChar (c : Char) : Bool := toLowerA c == c

def wordOk (w : List Char) : Bool := !w.isEmpty && w.all isLowerChar

def pairwisePF : List (List Char) → Bool
  | [] => true
  | w :: ws => ws.all (fun u => !(List.isPrefixOf w u || List.isPrefixOf u w)) && pairwisePF ws

def wfElem : PatElem → Bool
  | .lit w => wordOk w
  | .alt ws => !ws.isEmpty && ws.all wordOk && pairwisePF ws
  | .ws1 => true
  | .ws0 => true
  | .opt c => isLowerChar c

/-- No realization of the remaining pattern starts with whitespace (needed
so that the greedy `\s*` drop cannot eat text the rest of the pattern would
match). -/
def realsHeadNonWs (es : List PatElem) : Bool :=
  (reals es).all (fun v => match v with | [] => true | c :: _ => !jsWs c)

def wsGuard : PatElem → List PatElem → Bool
  | .ws0, es => realsHeadNonWs es
  | _, _ => true

def wfPat : List PatElem → Bool
  | [] => true
  | e :: es => wfElem e && wsGuard e es && wfPat es

theorem wordOk_lower {w : List Char} (h : w.all isLowerChar = true) : lower w = w := by
  induction w with
  | nil => rfl
  | cons c cs ih =>
    simp only [List.all_cons, Bool.and_eq_true] at h
    simp only [lower_cons, ih h.2, List.cons.injEq, and_true]
    have := h.1
    simp only [isLowerChar, beq_iff_eq] at this
    exact this

theorem prefix_append_of_prefix {v t x : List Char} (h : v <+: t) :
    x ++ v <+: x ++ t := by
  obtain ⟨s, rfl⟩ := h
  exact ⟨s, by simp⟩

theorem pickAlt_sound {ws : List (List Char)} {w r : List Char}
    (h : pickAlt ws w = some r) : ∃ wd ∈ ws, stripCI wd w = some r := by
  induction ws with
  | nil => simp [pickAlt] at h
  | cons wd ws ih =>
    simp only [pickAlt] at h
    cases hs : stripCI wd w with
    | some r' =>
      rw [hs] at h
      cases h
      exact ⟨wd, by simp, hs⟩
    | none =>
      rw [hs] at h
      obtain ⟨wd', hmem, hs'⟩ := ih h
      exact ⟨wd', by simp [hmem], hs'⟩

theorem mem_reals_alt {ws : List (List Char)} {es : List PatElem} {v : List Char} :
    v ∈ reals (.alt ws :: es) ↔ ∃ wd ∈ ws, ∃ v' ∈ reals es, v = wd ++ v' := by
  simp only [reals, List.mem_flatten, List.mem_map]
  constructor
  · rintro ⟨l, ⟨wd, hwd, rfl⟩, hv⟩
    simp only [List.mem_map] at hv
    obtain ⟨v', hv', rfl⟩ := hv
    exact ⟨wd, hwd, v', hv', rfl⟩
  · rintro ⟨wd, hwd, v', hv', rfl⟩
    exact ⟨(reals es).map (fun v => wd ++ v), ⟨wd, hwd, rfl⟩,
      List.mem_map.mpr ⟨v', hv', rfl⟩⟩

/-- Completeness of `stripCI` for a lower-case word that is a case-folded
prefix of the text. -/
theorem stripCI_complete {wd w : List Char} (hlow : lower wd = wd)
    (hp : wd <+: lower w) : stripCI wd w = some (w.drop wd.length) := by
  rw [stripCI_some_iff]
  refine ⟨w.take wd.length, (List.take_append_drop _ w).symm, ?_⟩
  rw [hlow]
  have hlen : wd.length ≤ w.length := by
    have := hp.length_le
    simpa [lower_length] using this
  obtain ⟨t, ht⟩ := hp
  have : lower (w.take wd.length) = (lower w).take wd.length := by
    simp [lower, List.map_take]
  rw [this, ← ht, List.take_left']
  simp

/-- A word that strips is determined: any two stripping words are
comparable, so under pairwise prefix-freedom the word that strips is unique
and `pickAlt` finds it. -/
theorem stripCI_prefix {wd w r : List Char} (h : stripCI wd w = some r) :
    lower wd <+: lower w := by
  obtain ⟨u, rfl, hu⟩ := (stripCI_some_iff wd w r).mp h
  rw [← hu, lower_append]
  exact ⟨lower r, rfl⟩

theorem pickAlt_complete {ws : List (List Char)} {wd w r : List Char}
    (hall : ws.all wordOk = true) (hpf : pairwisePF ws = true)
    (hmem : wd ∈ ws) (h : stripCI wd w = some r) : pickAlt ws w = some r := by
  induction ws with
  | nil => simp at hmem
  | cons w0 ws ih =>
    simp only [List.all_cons, Bool.and_eq_true] at hall
    simp only [pairwisePF, Bool.and_eq_true, List.all_eq_true] at hpf
    rcases List.mem_cons.mp hmem with rfl | hmem'
    · simp only [pickAlt, h]
    · have h0 : stripCI w0 w = none := by
        cases hs : stripCI w0 w with
        | none => rfl
        | some r0 =>
          exfalso
          have hp0 : lower w0 <+: lower w := stripCI_prefix hs
          have hpd : lower wd <+: lower w := stripCI_prefix h
          have hw0 : lower w0 = w0 := by
            have h1 := hall.1
            simp only [wordOk, Bool.and_eq_true] at h1
            exact wordOk_lower h1.2
          have hwd : lower wd = wd := by
            have h1 := hall.2
            simp only [List.all_eq_true] at h1
            have h2 := h1 wd hmem'
            simp only [wordOk, Bool.and_eq_true] at h2
            exact wordOk_lower h2.2
          rw [hw0] at hp0
          rw [hwd] at hpd
          have hcmp := List.prefix_or_prefix_of_prefix hp0 hpd
          have hnp := hpf.1 wd hmem'
          rcases hcmp with hc | hc
          · have hb : w0.isPrefixOf wd = true := List.isPrefixOf_iff_prefix.mpr hc
            rw [hb] at hnp
            simp at hnp
          · have hb : wd.isPrefixOf w0 = true := List.isPrefixOf_iff_prefix.mpr hc
            rw [hb] at hnp
            simp at hnp
      simp only [pickAlt, h0]
      exact ih hall.2 hpf.2 hmem'

theorem lower_drop (w : List Char) (n : ℕ) :
    lower (w.drop n) = (lower w).drop n := by
  simp [lower, List.map_drop]

/-- Soundness of the matcher on normalized text: a successful match means
some realization string is a case-folded prefix, and exactly that prefix is
consumed. -/
theorem matchElems_sound {p : List PatElem} {w r : List Char}
    (hwf : wfPat p = true) (hn : normed w = true)
    (h : matchElems p w = some r) :
    ∃ v ∈ reals p, v <+: lower w ∧ r = w.drop v.length := by
  induction p generalizing w with
  | nil =>
    simp only [matchElems, Option.some.injEq] at h
    exact ⟨[], by simp [reals], List.nil_prefix, by simp [h]⟩
  | cons e es ih =>
    have hwfe : wfElem e = true ∧ wfPat es = true := by
      simp only [wfPat, Bool.and_eq_true] at hwf
      exact ⟨hwf.1.1, hwf.2⟩
    cases e with
    | lit wd =>
      simp only [matchElems, Option.bind_eq_some] at h
      obtain ⟨w1, hs, hm⟩ := h
      obtain ⟨u, rfl, hu⟩ := (stripCI_some_iff wd _ w1).mp hs
      have hword : lower wd = wd := by
        have h1 := hwfe.1
        simp only [wfElem, wordOk, Bool.and_eq_true] at h1
        exact wordOk_lower h1.2
      have hulen : u.length = wd.length := by
        have := congrArg List.length hu
        simpa [lower_length] using this
      obtain ⟨v', hv', hp, hr⟩ := ih hwfe.2 (normed_suffix ⟨u, rfl⟩ hn) hm
      refine ⟨wd ++ v', ?_, ?_, ?_⟩
      · simp only [reals]
        exact List.mem_map.mpr ⟨v', hv', rfl⟩
      · rw [lower_append, hu, hword]
        exact prefix_append_of_prefix hp
      · rw [hr, List.length_append, ← hulen, List.drop_append_eq_append_drop]
        simp
    | alt ws =>
      simp only [matchElems, Option.bind_eq_some] at h
      obtain ⟨w1, hpick, hm⟩ := h
      obtain ⟨wd, hwd, hs⟩ := pickAlt_sound hpick
      obtain ⟨u, rfl, hu⟩ := (stripCI_some_iff wd _ w1).mp hs
      have hword : lower wd = wd := by
        refine wordOk_lower ?_
        have h1 := hwfe.1
        simp only [wfElem, Bool.and_eq_true, List.all_eq_true] at h1
        have h2 := h1.1.2 wd hwd
        simp only [wordOk, Bool.and_eq_true] at h2
        exact h2.2
      have hulen : u.length = wd.length := by
        have := congrArg List.length hu
        simpa [lower_length] using this
      obtain ⟨v', hv', hp, hr⟩ := ih hwfe.2 (normed_suffix ⟨u, rfl⟩ hn) hm
      refine ⟨wd ++ v', mem_reals_alt.mpr ⟨wd, hwd, v', hv', rfl⟩, ?_, ?_⟩
      · rw [lower_append, hu, hword]
        exact prefix_append_of_prefix hp
      · rw [hr, List.length_append, ← hulen, List.drop_append_eq_append_drop]
        simp
    | ws1 =>
      cases w with
      | nil => simp [matchElems] at h
      | cons c cs =>
        simp only [matchElems] at h
        split at h
        · rename_i hws
          rw [normed_dropWhile_after_space hn hws] at h
          obtain ⟨v', hv', hp, hr⟩ := ih hwfe.2 (normed_tail hn) h
          have hc : c = ' ' := normed_head_ws hn hws
          refine ⟨' ' :: v', ?_, ?_, ?_⟩
          · simp only [reals]
            exact List.mem_map.mpr ⟨v', hv', rfl⟩
          · subst hc
            rw [lower_cons]
            exact List.cons_prefix_cons.mpr ⟨rfl, hp⟩
          · simpa using hr
        · exact absurd h (by simp)
    | ws0 =>
      simp only [matchElems] at h
      cases w with
      | nil =>
        simp only [List.dropWhile_nil] at h
        obtain ⟨v', hv', hp, hr⟩ := ih hwfe.2 hn h
        exact ⟨v', by simp only [reals]; exact List.mem_append_left _ hv', hp, hr⟩
      | cons c cs =>
        by_cases hws : jsWs c = true
        · rw [List.dropWhile_cons, if_pos hws, normed_dropWhile_after_space hn hws] at h
          obtain ⟨v', hv', hp, hr⟩ := ih hwfe.2 (normed_tail hn) h
          have hc : c = ' ' := normed_head_ws hn hws
          refine ⟨' ' :: v', ?_, ?_, ?_⟩
          · simp only [reals]
            exact List.mem_append_right _ (List.mem_map.mpr ⟨v', hv', rfl⟩)
          · subst hc
            rw [lower_cons]
            exact List.cons_prefix_cons.mpr ⟨rfl, hp⟩
          · simpa using hr
        · rw [List.dropWhile_cons, if_neg (by simp [hws])] at h
          obtain ⟨v', hv', hp, hr⟩ := ih hwfe.2 hn h
          exact ⟨v', by simp only [reals]; exact List.mem_append_left _ hv', hp, hr⟩
    | opt c =>
      cases w with
      | nil =>
        simp only [matchElems] at h
        obtain ⟨v', hv', hp, hr⟩ := ih hwfe.2 (by simp [normed, normedChars, noAdjSpaces]) h
        exact ⟨v', by simp only [reals]; exact List.mem_append_right _ hv', hp, hr⟩
      | cons d cs =>
        simp only [matchElems] at h
        split at h
        · rename_i he
          cases hm : matchElems es cs with
          | some r' =>
            rw [hm] at h
            cases h
            obtain ⟨v', hv', hp, hr⟩ := ih hwfe.2 (normed_tail hn) hm
            refine ⟨c :: v', ?_, ?_, ?_⟩
            · simp only [reals]
              exact List.mem_append_left _ (List.mem_map.mpr ⟨v', hv', rfl⟩)
            · rw [lower_cons]
              refine List.cons_prefix_cons.mpr ⟨?_, hp⟩
              have hcd : toLowerA c = toLowerA d := by
                simpa [eqCI, decide_eq_true_eq] using he
              have hlc : toLowerA c = c := by
                have h1 := hwfe.1
                simp only [wfElem, isLowerChar, beq_iff_eq] at h1
                exact h1
              rw [← hcd, hlc]
            · simpa using hr
          | none =>
            rw [hm] at h
            obtain ⟨v', hv', hp, hr⟩ := ih hwfe.2 hn h
            exact ⟨v', by simp only [reals]; exact List.mem_append_right _ hv', hp, hr⟩
        · obtain ⟨v', hv', hp, hr⟩ := ih hwfe.2 hn h
          exact ⟨v', by simp only [reals]; exact List.mem_append_right _ hv', hp, hr⟩

/-- Completeness of the matcher on normalized text: if some realization
string is a case-folded prefix, the matcher succeeds. -/
theorem matchElems_complete {p : List PatElem} {w v : List Char}
    (hwf : wfPat p = true) (hn : normed w = true)
    (hv : v ∈ reals p) (hp : v <+: lower w) :
    (matchElems p w).isSome = true := by
  induction p generalizing w v with
  | nil => simp [matchElems]
  | cons e es ih =>
    simp only [wfPat, Bool.and_eq_true] at hwf
    obtain ⟨⟨hwfe, hguard⟩, hwfes⟩ := hwf
    cases e with
    | lit wd =>
      simp only [reals, List.mem_map] at hv
      obtain ⟨v', hv', rfl⟩ := hv
      have hword : lower wd = wd := by
        simp only [wfElem, wordOk, Bool.and_eq_true] at hwfe
        exact wordOk_lower hwfe.2
      have hwdp : wd <+: lower w := (List.prefix_append wd v').trans hp
      have hs := stripCI_complete hword hwdp
      have hvp : v' <+: lower (w.drop wd.length) := by
        rw [lower_drop]
        obtain ⟨t, ht⟩ := hp
        refine ⟨t, ?_⟩
        have := congrArg (List.drop wd.length) ht
        simpa using this
      have := ih hwfes (normed_suffix (List.drop_suffix _ _) hn) hv' hvp
      simp only [matchElems, hs, Option.bind_some]
      exact this
    | alt ws =>
      obtain ⟨wd, hwd, v', hv', rfl⟩ := mem_reals_alt.mp hv
      have hallOk : ws.all wordOk = true ∧ pairwisePF ws = true := by
        simp only [wfElem, Bool.and_eq_true] at hwfe
        exact ⟨hwfe.1.2, hwfe.2⟩
      have hword : lower wd = wd := by
        have h1 := hallOk.1
        simp only [List.all_eq_true] at h1
        have h2 := h1 wd hwd
        simp only [wordOk, Bool.and_eq_true] at h2
        exact wordOk_lower h2.2
      have hwdp : wd <+: lower w := (List.prefix_append wd v').trans hp
      have hs := stripCI_complete hword hwdp
      have hpa := pickAlt_complete hallOk.1 hallOk.2 hwd hs
      have hvp : v' <+: lower (w.drop wd.length) := by
        rw [lower_drop]
        obtain ⟨t, ht⟩ := hp
        refine ⟨t, ?_⟩
        have := congrArg (List.drop wd.length) ht
        simpa using this
      have := ih hwfes (normed_suffix (List.drop_suffix _ _) hn) hv' hvp
      simp only [matchElems, hpa, Option.bind_some]
      exact this
    | ws1 =>
      simp only [reals, List.mem_map] at hv
      obtain ⟨v', hv', rfl⟩ := hv
      cases w with
      | nil => simp [lower] at hp
      | cons c cs =>
        rw [lower_cons] at hp
        have hc := (List.cons_prefix_cons.mp hp).1
        have hcs : c = ' ' := toLowerA_eq_space.mp hc.symm
        subst hcs
        have hws : jsWs ' ' = true := by decide
        simp only [matchElems, hws, if_true, normed_dropWhile_after_space hn hws]
        exact ih hwfes (normed_tail hn) hv' (List.cons_prefix_cons.mp hp).2
    | ws0 =>
      simp only [reals, List.mem_append, List.mem_map] at hv
      rcases hv with hv' | ⟨v', hv', rfl⟩
      · cases w with
        | nil =>
          simp only [matchElems, List.dropWhile_nil]
          exact ih hwfes hn hv' hp
        | cons c cs =>
          by_cases hws : jsWs c = true
          · -- the text starts with a space the pattern does not need;
            -- realizations of `es` cannot start with whitespace, so v = []
            have hc : c = ' ' := normed_head_ws hn hws
            have hv0 : v = [] := by
              cases v with
              | nil => rfl
              | cons x xs =>
                exfalso
                rw [lower_cons] at hp
                have hx := (List.cons_prefix_cons.mp hp).1
                simp only [wsGuard] at hguard
                have hg := hguard
                simp only [realsHeadNonWs, List.all_eq_true] at hg
                have hh := hg _ hv'
                subst hc
                rw [hx, show toLowerA ' ' = ' ' from rfl] at hh
                simp [jsWs] at hh
            subst hv0
            simp only [matchElems, List.dropWhile_cons, hws, if_true,
              normed_dropWhile_after_space hn hws]
            exact ih hwfes (normed_tail hn) hv' List.nil_prefix
          · simp only [matchElems, List.dropWhile_cons, hws]
            simp only [Bool.false_eq_true, if_false]
            exact ih hwfes hn hv' hp
      · cases w with
        | nil => simp [lower] at hp
        | cons c cs =>
          rw [lower_cons] at hp
          have hc := (List.cons_prefix_cons.mp hp).1
          have hcs : c = ' ' := toLowerA_eq_space.mp hc.symm
          subst hcs
          have hws : jsWs ' ' = true := by decide
          simp only [matchElems, List.dropWhile_cons, hws, if_true,
            normed_dropWhile_after_space hn hws]
          exact ih hwfes (normed_tail hn) hv' (List.cons_prefix_cons.mp hp).2
    | opt c =>
      simp only [reals, List.mem_append, List.mem_map] at hv
      rcases hv with ⟨v', hv', rfl⟩ | hv'
      · cases w with
        | nil => simp [lower] at hp
        | cons d cs =>
          rw [lower_cons] at hp
          have hcd := (List.cons_prefix_cons.mp hp).1
          have hlc : toLowerA c = c := by
            simpa [wfElem, isLowerChar, beq_iff_eq] using hwfe
          have he : eqCI c d = true := by
            simp only [eqCI, decide_eq_true_eq]
            rw [hlc, hcd]
          simp only [matchElems, he, if_true]
          have hms : (matchElems es cs).isSome = true :=
            ih hwfes (normed_tail hn) hv' (List.cons_prefix_cons.mp hp).2
          cases hm : matchElems es cs with
          | some r' => rfl
          | none =>
            rw [hm] at hms
            simp at hms
      · cases w with
        | nil =>
          simp only [matchElems]
          exact ih hwfes hn hv' hp
        | cons d cs =>
          simp only [matchElems]
          split
          · cases hm : matchElems es cs with
            | some r' => rfl
            | none => exact ih hwfes hn hv' hp
          · exact ih hwfes hn hv' hp

theorem hasMatch_of_suffix {p : List PatElem} {w s : List Char}
    (hs : s <:+ w) (hm : (matchElems p s).isSome = true) : hasMatch p w = true := by
  induction w with
  | nil =>
    have : s = [] := List.suffix_nil.mp hs
    subst this
    simpa [hasMatch] using hm
  | cons c cs ih =>
    rcases List.suffix_cons_iff.mp hs with rfl | hs'
    · simp [hasMatch, hm]
    · simp [hasMatch, ih hs']

/-- On normalized text, the `test` of a suspicious pattern succeeds exactly
when one of its realization strings occurs (case-folded) in the text. -/
theorem hasMatch_iff_occurs {p : List PatElem} {w : List Char}
    (hwf : wfPat p = true) (hn : normed w = true) :
    hasMatch p w = true ↔ ∃ v ∈ reals p, v <:+: lower w := by
  constructor
  · intro h
    induction w with
    | nil =>
      simp only [hasMatch, Option.isSome_iff_exists] at h
      obtain ⟨r, hr⟩ := h
      obtain ⟨v, hv, hp, -⟩ := matchElems_sound hwf hn hr
      exact ⟨v, hv, hp.isInfix⟩
    | cons c cs ih =>
      simp only [hasMatch, Bool.or_eq_true] at h
      rcases h with h | h
      · simp only [Option.isSome_iff_exists] at h
        obtain ⟨r, hr⟩ := h
        obtain ⟨v, hv, hp, -⟩ := matchElems_sound hwf hn hr
        exact ⟨v, hv, hp.isInfix⟩
      · obtain ⟨v, hv, hocc⟩ := ih (normed_tail hn) h
        exact ⟨v, hv, (List.infix_cons_iff.mpr (Or.inr hocc))⟩
  · rintro ⟨v, hv, hocc⟩
    obtain ⟨a, b, hab⟩ := hocc
    have hlen : a.length ≤ w.length := by
      have := congrArg List.length hab
      simp [lower_length] at this
      omega
    have hsuf : w.drop a.length <:+ w := List.drop_suffix _ _
    have hpre : v <+: lower (w.drop a.length) := by
      rw [lower_drop]
      refine ⟨b, ?_⟩
      have := congrArg (List.drop a.length) hab
      simpa using this
    exact hasMatch_of_suffix hsuf
      (matchElems_complete hwf (normed_suffix hsuf hn) hv hpre)

/-! Overlap conditions between a realization string and the redaction
marker.  They are decidable and checked by `decide` for each of the twenty
realization strings of the eight suspicious patterns. -/

/-- Conditions letting a string pass over an inserted marker: it does not
contain the marker, is not contained in it, no nonempty marker prefix is its
suffix, and no nonempty proper marker suffix is its prefix. -/
def goodReal (m v : List Char) : Prop :=
  ¬ (m <:+: v) ∧ ¬ (v <:+: m) ∧
  (∀ k ≤ m.length, 0 < k → ¬ ((m.take k) <:+ v)) ∧
  (∀ k < m.length, 0 < k → ¬ ((m.drop k) <+: v))

/-- The sub-conditions that survive taking suffixes of `v`. -/
def goodTail (m u : List Char) : Prop :=
  ¬ (m <:+: u) ∧ (∀ k ≤ m.length, 0 < k → ¬ ((m.take k) <:+ u))

theorem goodReal_goodTail {m v : List Char} (h : goodReal m v) : goodTail m v :=
  ⟨h.1, h.2.2.1⟩

theorem goodTail_suffix {m u u' : List Char} (h : goodTail m u) (hs : u' <:+ u) :
    goodTail m u' := by
  refine ⟨fun hc => h.1 (hc.trans hs.isInfix), fun k hk h0 hc => ?_⟩
  exact h.2 k hk h0 (hc.trans hs)

theorem prefix_of_append_eq {a x b y : List Char} (h : a ++ x = b ++ y)
    (hl : a.length ≤ b.length) : a <+: b := by
  have h1 : a = (a ++ x).take a.length := by simp
  rw [h, List.take_append_of_le_length hl] at h1
  rw [h1]
  exact List.take_prefix _ _

/-- A string passing the overlap conditions that occurs in `m ++ y` occurs
in `y`. -/
theorem infix_append_marker {m v y : List Char} (hg : goodReal m v)
    (h : v <:+: m ++ y) : v <:+: y := by
  obtain ⟨a, b, hab⟩ := h
  by_cases hma : m.length ≤ a.length
  · -- occurrence entirely after the marker
    have hpre : m <+: a := by
      have : m ++ y = a ++ (v ++ b) := by simpa using hab.symm
      exact prefix_of_append_eq this hma
    obtain ⟨a', rfl⟩ := hpre
    refine ⟨a', b, ?_⟩
    have : m ++ (a' ++ v ++ b) = m ++ y := by simpa using hab
    simpa using List.append_cancel_left this
  · push_neg at hma
    by_cases hav : a.length + v.length ≤ m.length
    · -- occurrence inside the marker
      exfalso
      have hpre : a ++ v <+: m := by
        have : (a ++ v) ++ b = m ++ y := by simpa using hab
        exact prefix_of_append_eq this (by simpa using hav)
      exact hg.2.1 ((List.suffix_append a v).isInfix.trans hpre.isInfix)
    · push_neg at hav
      cases ha : a with
      | nil =>
        -- the occurrence starts at the marker and runs past it
        exfalso
        subst ha
        have hpre : m <+: v := by
          have : m ++ y = v ++ b := by simpa using hab.symm
          refine prefix_of_append_eq this ?_
          simp only [List.length_nil, Nat.zero_add] at hav
          omega
        exact hg.1 hpre.isInfix
      | cons a0 as =>
        -- the occurrence starts inside the marker and runs past it
        exfalso
        subst ha
        set a := a0 :: as with hadef
        have hpa : a <+: m := by
          have : a ++ (v ++ b) = m ++ y := by simpa using hab
          exact prefix_of_append_eq this (by omega)
        have ham : a = m.take a.length := by
          obtain ⟨t, ht⟩ := hpa
          rw [← ht, List.take_left]
        have hsplit : a ++ m.drop a.length = m := by
          conv_rhs => rw [← List.take_append_drop a.length m]
          rw [← ham]
        have h2 : a ++ (v ++ b) = a ++ (m.drop a.length ++ y) := by
          rw [← List.append_assoc, ← List.append_assoc, hsplit]
          simpa using hab
        have hvb : v ++ b = m.drop a.length ++ y := List.append_cancel_left h2
        have hdp : m.drop a.length <+: v := by
          refine prefix_of_append_eq hvb.symm ?_
          simp only [List.length_drop]
          omega
        refine hg.2.2.2 a.length hma ?_ hdp
        rw [hadef]
        simp

/-- A nonempty string whose suffixes avoid the marker's prefixes cannot be a
prefix of `m ++ y`. -/
theorem prefix_append_marker {m u y : List Char} (hg : goodTail m u)
    (h : u <+: m ++ y) : u = [] := by
  by_contra hne
  by_cases hl : u.length ≤ m.length
  · have hu : u = m.take u.length := by
      obtain ⟨t, ht⟩ := h
      have h2 := congrArg (List.take u.length) ht
      rw [List.take_left, List.take_append_of_le_length hl] at h2
      exact h2
    refine hg.2 u.length hl ?_ ?_
    · cases u with
      | nil => exact absurd rfl hne
      | cons x xs => simp
    · rw [← hu]
  · push_neg at hl
    have hmp : m <+: u := by
      obtain ⟨t, ht⟩ := h
      exact prefix_of_append_eq ht.symm (by omega)
    exact hg.1 hmp.isInfix

/-- Prefix transfer: a good string that is a prefix of the redacted text is
a prefix of the original text. -/
theorem prefix_through_replace {p : List PatElem} {m : List Char}
    (hlm : lower m = m) :
    ∀ (fuel : ℕ) (w u : List Char), w.length ≤ fuel → goodTail m u →
      u <+: lower (replaceAllPatAux p m fuel w) → u <+: lower w := by
  intro fuel
  induction fuel with
  | zero =>
    intro w u hlen hg hu
    have hw : w = [] := by
      cases w with
      | nil => rfl
      | cons c cs => simp at hlen
    subst hw
    simpa [replaceAllPatAux] using hu
  | succ fuel ih =>
    intro w u hlen hg hu
    cases w with
    | nil => simpa [replaceAllPatAux] using hu
    | cons c cs =>
      simp only [replaceAllPatAux] at hu
      cases hm : matchElems p (c :: cs) with
      | some rest =>
        simp only [hm] at hu
        split at hu
        · rw [lower_append, hlm] at hu
          have := prefix_append_marker hg hu
          subst this
          exact List.nil_prefix
        · rw [lower_append, hlm] at hu
          have := prefix_append_marker hg hu
          subst this
          exact List.nil_prefix
      | none =>
        simp only [hm] at hu
        rw [lower_cons] at hu ⊢
        cases u with
        | nil => exact List.nil_prefix
        | cons x xs =>
          have hx := (List.cons_prefix_cons.mp hu).1
          have hxs := (List.cons_prefix_cons.mp hu).2
          refine List.cons_prefix_cons.mpr ⟨hx, ?_⟩
          exact ih cs xs (by simpa using hlen) (goodTail_suffix hg ⟨[x], rfl⟩) hxs

/-- Occurrence transfer: a good string occurring in the redacted text
occurs in the original text. -/
theorem occ_through_replace {p : List PatElem} {m : List Char}
    (hlm : lower m = m) :
    ∀ (fuel : ℕ) (w v : List Char), w.length ≤ fuel → goodReal m v →
      v <:+: lower (replaceAllPatAux p m fuel w) → v <:+: lower w := by
  intro fuel
  induction fuel with
  | zero =>
    intro w v hlen hg hv
    have hw : w = [] := by
      cases w with
      | nil => rfl
      | cons c cs => simp at hlen
    subst hw
    simpa [replaceAllPatAux] using hv
  | succ fuel ih =>
    intro w v hlen hg hv
    cases w with
    | nil => simpa [replaceAllPatAux] using hv
    | cons c cs =>
      simp only [replaceAllPatAux] at hv
      cases hm : matchElems p (c :: cs) with
      | some rest =>
        simp only [hm] at hv
        split at hv
        · rename_i hr
          rw [lower_append, hlm] at hv
          have h1 := infix_append_marker hg hv
          have h2 := ih rest v (by simp only [List.length_cons] at hlen; omega) hg h1
          have h3 : rest <:+ c :: cs := matchElems_suffix hm
          exact h2.trans (List.IsSuffix.map toLowerA h3).isInfix
        · rw [lower_append, hlm] at hv
          have h1 := infix_append_marker hg hv
          rw [lower_cons] at h1
          rcases List.infix_cons_iff.mp h1 with hpre | hocc
          · cases v with
            | nil => exact List.nil_infix
            | cons x xs =>
              have hx := (List.cons_prefix_cons.mp hpre).1
              have hxs := (List.cons_prefix_cons.mp hpre).2
              have := prefix_through_replace hlm fuel cs xs (by simpa using hlen)
                (goodTail_suffix (goodReal_goodTail hg) ⟨[x], rfl⟩) hxs
              rw [lower_cons]
              exact (List.cons_prefix_cons.mpr ⟨hx, this⟩).isInfix
          · have := ih cs v (by simpa using hlen) hg hocc
            rw [lower_cons]
            exact List.infix_cons_iff.mpr (Or.inr this)
      | none =>
        simp only [hm] at hv
        rw [lower_cons] at hv
        rcases List.infix_cons_iff.mp hv with hpre | hocc
        · cases v with
          | nil => exact List.nil_infix
          | cons x xs =>
            have hx := (List.cons_prefix_cons.mp hpre).1
            have hxs := (List.cons_prefix_cons.mp hpre).2
            have := prefix_through_replace hlm fuel cs xs (by simpa using hlen)
              (goodTail_suffix (goodReal_goodTail hg) ⟨[x], rfl⟩) hxs
            rw [lower_cons]
            exact (List.cons_prefix_cons.mpr ⟨hx, this⟩).isInfix
        · have := ih cs v (by simpa using hlen) hg hocc
          rw [lower_cons]
          exact List.infix_cons_iff.mpr (Or.inr this)

/-- After a pattern's own global replace, no realization of that pattern
occurs in the result. -/
theorem self_through_replace {p : List PatElem} {m : List Char}
    (hlm : lower m = m) (hwf : wfPat p = true)
    (hgood : ∀ v ∈ reals p, goodReal m v)
    (hne : ∀ v ∈ reals p, v ≠ []) :
    ∀ (fuel : ℕ) (w : List Char), w.length ≤ fuel → normed w = true →
      ∀ v ∈ reals p, ¬ v <:+: lower (replaceAllPatAux p m fuel w) := by
  intro fuel
  induction fuel with
  | zero =>
    intro w hlen hn v hv hocc
    have hw : w = [] := by
      cases w with
      | nil => rfl
      | cons c cs => simp at hlen
    subst hw
    simp only [replaceAllPatAux] at hocc
    exact hne v hv (by simpa [lower] using hocc)
  | succ fuel ih =>
    intro w hlen hn v hv hocc
    cases w with
    | nil =>
      simp only [replaceAllPatAux] at hocc
      exact hne v hv (by simpa [lower] using hocc)
    | cons c cs =>
      simp only [replaceAllPatAux] at hocc
      cases hm : matchElems p (c :: cs) with
      | some rest =>
        simp only [hm] at hocc
        obtain ⟨v0, hv0, hp0, hrest⟩ := matchElems_sound hwf hn hm
        have hv0ne : v0 ≠ [] := hne v0 hv0
        have hcond : rest.length ≤ cs.length := by
          rw [hrest]
          simp only [List.length_drop, List.length_cons]
          cases v0 with
          | nil => exact absurd rfl hv0ne
          | cons y ys => simp
        rw [if_pos hcond, lower_append, hlm] at hocc
        have h1 := infix_append_marker (hgood v hv) hocc
        have hrs : rest <:+ c :: cs := matchElems_suffix hm
        exact ih rest (by
            simp only [List.length_cons] at hlen
            omega)
          (normed_suffix hrs hn) v hv h1
      | none =>
        simp only [hm] at hocc
        rw [lower_cons] at hocc
        rcases List.infix_cons_iff.mp hocc with hpre | htail
        · cases v with
          | nil => exact hne [] hv rfl
          | cons x xs =>
            have hx := (List.cons_prefix_cons.mp hpre).1
            have hxs := (List.cons_prefix_cons.mp hpre).2
            have hxcs := prefix_through_replace hlm fuel cs xs
              (by simp only [List.length_cons] at hlen; omega)
              (goodTail_suffix (goodReal_goodTail (hgood _ hv)) ⟨[x], rfl⟩) hxs
            have hvp : x :: xs <+: lower (c :: cs) := by
              rw [lower_cons]
              exact List.cons_prefix_cons.mpr ⟨hx, hxcs⟩
            have := matchElems_complete hwf hn hv hvp
            rw [hm] at this
            simp at this
        · exact ih cs (by simp only [List.length_cons] at hlen; omega)
            (normed_tail hn) v hv htail

/-! Tidiness: normalized whitespace plus non-whitespace ends.  This is what
`collapseWs ∘ trimJs` establishes and redaction preserves, and it makes a
second trim/collapse the identity. -/

def headNotWs : List Char → Bool
  | [] => true
  | c :: _ => !jsWs c

def lastNotWs (cs : List Char) : Bool :=
  match cs.getLast? with
  | none => true
  | some c => !jsWs c

theorem headNotWs_dropWhile (l : List Char) : headNotWs (l.dropWhile jsWs) = true := by
  induction l with
  | nil => rfl
  | cons c cs ih =>
    rw [List.dropWhile_cons]
    split
    · exact ih
    · rename_i h
      simp [headNotWs, h]

theorem headNotWs_prefix {u y : List Char} (h : u <+: y) (hy : headNotWs y = true) :
    headNotWs u = true := by
  cases u with
  | nil => rfl
  | cons c cs =>
    cases y with
    | nil => simp at h
    | cons d ds =>
      have := (List.cons_prefix_cons.mp h).1
      subst this
      exact hy

theorem dropWhile_of_headNotWs {l : List Char} (h : headNotWs l = true) :
    l.dropWhile jsWs = l := by
  cases l with
  | nil => rfl
  | cons c cs =>
    rw [List.dropWhile_cons, if_neg]
    simp only [headNotWs, Bool.not_eq_true'] at h
    simp [h]

theorem lastNotWs_reverse (z : List Char) : lastNotWs z.reverse = headNotWs z := by
  cases z with
  | nil => rfl
  | cons c cs =>
    simp [lastNotWs, headNotWs, List.getLast?_reverse]

theorem headNotWs_trimJs (x : List Char) : headNotWs (trimJs x) = true := by
  unfold trimJs
  set y := x.dropWhile jsWs with hy
  have hyh : headNotWs y = true := headNotWs_dropWhile x
  have hsuf : y.reverse.dropWhile jsWs <:+ y.reverse := dropWhile_suffix' jsWs y.reverse
  have hpre : (y.reverse.dropWhile jsWs).reverse <+: y := by
    rw [← List.reverse_suffix]
    simpa using hsuf
  exact headNotWs_prefix hpre hyh

theorem lastNotWs_trimJs (x : List Char) : lastNotWs (trimJs x) = true := by
  unfold trimJs
  rw [lastNotWs_reverse]
  exact headNotWs_dropWhile _

theorem noAdjSpaces_cons {x : Char} {X : List Char} (hX : noAdjSpaces X = true)
    (hx : ¬(x = ' ' ∧ X.head? = some ' ')) : noAdjSpaces (x :: X) = true := by
  cases X with
  | nil => rfl
  | cons y ys =>
    simp only [noAdjSpaces, Bool.and_eq_true]
    refine ⟨?_, hX⟩
    simp only [Bool.not_eq_true', Bool.and_eq_false_iff]
    by_cases hxs : x = ' '
    · right
      simp only [List.head?_cons, Option.some.injEq] at hx
      have := fun h => hx ⟨hxs, h⟩
      simpa using this
    · left
      simpa using hxs

/-- `collapseWsAux` output is always whitespace-normalized, and in skip mode
never starts with a space. -/
theorem collapseWsAux_normed (l : List Char) :
    ∀ b, normedChars (collapseWsAux b l) = true ∧
      noAdjSpaces (collapseWsAux b l) = true ∧
      ((collapseWsAux true l).head? = some ' ' → False) := by
  induction l with
  | nil =>
    intro b
    exact ⟨rfl, rfl, fun h => by simp [collapseWsAux] at h⟩
  | cons c cs ih =>
    intro b
    by_cases hws : jsWs c = true
    · have eqT : collapseWsAux true (c :: cs) = collapseWsAux true cs := by
        simp [collapseWsAux, hws]
      have eqF : collapseWsAux false (c :: cs) = ' ' :: collapseWsAux true cs := by
        simp [collapseWsAux, hws]
      have ihT := ih true
      cases b with
      | true =>
        rw [eqT]
        exact ihT
      | false =>
        rw [eqF, eqT]
        refine ⟨?_, ?_, ihT.2.2⟩
        · simp only [normedChars, List.all_cons, Bool.and_eq_true]
          exact ⟨by simp, ihT.1⟩
        · exact noAdjSpaces_cons ihT.2.1 (fun h => ihT.2.2 h.2)
    · have ihF := ih false
      have hout : ∀ b', collapseWsAux b' (c :: cs) = c :: collapseWsAux false cs := by
        intro b'
        simp [collapseWsAux, hws]
      refine ⟨?_, ?_, ?_⟩
      · rw [hout b]
        simp only [normedChars, List.all_cons, Bool.and_eq_true]
        exact ⟨by simp [hws], ihF.1⟩
      · rw [hout b]
        refine noAdjSpaces_cons ihF.2.1 ?_
        rintro ⟨rfl, -⟩
        simp [jsWs] at hws
      · rw [hout true]
        simp only [List.head?_cons, Option.some.injEq]
        intro h
        rw [h] at hws
        simp [jsWs] at hws

theorem collapseWs_normed (l : List Char) : normed (collapseWs l) = true := by
  have h := collapseWsAux_normed l false
  simp only [normed, Bool.and_eq_true, collapseWs]
  exact ⟨h.1, h.2.1⟩

theorem headNotWs_collapseWs {l : List Char} (h : headNotWs l = true) :
    headNotWs (collapseWs l) = true := by
  cases l with
  | nil => rfl
  | cons c cs =>
    simp only [headNotWs, Bool.not_eq_true'] at h
    simp only [collapseWs, collapseWsAux, h]
    simp [headNotWs, h]

theorem lastNotWs_cons_of_ne {x : Char} {X : List Char} (h : X ≠ []) :
    lastNotWs (x :: X) = lastNotWs X := by
  cases X with
  | nil => exact absurd rfl h
  | cons y ys => simp [lastNotWs, List.getLast?_cons_cons]

theorem collapseWsAux_ne_nil {l : List Char} (hl : lastNotWs l = true) (hne : l ≠ []) :
    ∀ b, collapseWsAux b l ≠ [] := by
  induction l with
  | nil => exact absurd rfl hne
  | cons c cs ih =>
    intro b
    cases cs with
    | nil =>
      have hc : jsWs c = false := by
        simpa [lastNotWs, Bool.not_eq_true'] using hl
      simp [collapseWsAux, hc]
    | cons d ds =>
      have hcs : lastNotWs (d :: ds) = true := by
        rwa [lastNotWs_cons_of_ne (by simp)] at hl
      by_cases hws : jsWs c = true
      · cases b with
        | true =>
          have : collapseWsAux true (c :: d :: ds) = collapseWsAux true (d :: ds) := by
            simp [collapseWsAux, hws]
          rw [this]
          exact ih hcs (by simp) true
        | false =>
          simp [collapseWsAux, hws]
      · simp [collapseWsAux, hws]

theorem lastNotWs_collapseWsAux {l : List Char} (hl : lastNotWs l = true) :
    ∀ b, lastNotWs (collapseWsAux b l) = true := by
  induction l with
  | nil => intro b; rfl
  | cons c cs ih =>
    intro b
    cases cs with
    | nil =>
      have hc : jsWs c = false := by
        simpa [lastNotWs, Bool.not_eq_true'] using hl
      simp only [collapseWsAux, hc]
      simpa [lastNotWs] using hl
    | cons d ds =>
      have hcs : lastNotWs (d :: ds) = true := by
        rwa [lastNotWs_cons_of_ne (by simp)] at hl
      have hXne : ∀ b', collapseWsAux b' (d :: ds) ≠ [] :=
        fun b' => collapseWsAux_ne_nil hcs (by simp) b'
      by_cases hws : jsWs c = true
      · cases b with
        | true =>
          have heq : collapseWsAux true (c :: d :: ds) = collapseWsAux true (d :: ds) := by
            simp [collapseWsAux, hws]
          rw [heq]
          exact ih hcs true
        | false =>
          have heq : collapseWsAux false (c :: d :: ds) =
              ' ' :: collapseWsAux true (d :: ds) := by
            simp [collapseWsAux, hws]
          rw [heq, lastNotWs_cons_of_ne (hXne true)]
          exact ih hcs true
      · have heq : collapseWsAux b (c :: d :: ds) = c :: collapseWsAux false (d :: ds) := by
          simp [collapseWsAux, hws]
        rw [heq, lastNotWs_cons_of_ne (hXne false)]
        exact ih hcs false

theorem getLast?_cons_of_ne {a : Char} {l : List Char} (h : l ≠ []) :
    (a :: l).getLast? = l.getLast? := by
  cases l with
  | nil => exact absurd rfl h
  | cons b bs => exact List.getLast?_cons_cons

theorem replaceAllPatAux_ne_nil {p : List PatElem} {m : List Char} (hm : m ≠ [])
    (fuel : ℕ) (w : List Char) (hw : w ≠ []) :
    replaceAllPatAux p m fuel w ≠ [] := by
  cases fuel with
  | zero =>
    cases w with
    | nil => exact absurd rfl hw
    | cons c cs => simpa [replaceAllPatAux] using hw
  | succ fuel =>
    cases w with
    | nil => exact absurd rfl hw
    | cons c cs =>
      simp only [replaceAllPatAux]
      cases hmm : matchElems p (c :: cs) with
      | some rest =>
        simp only [hmm]
        split
        · intro hc
          exact hm (List.append_eq_nil.mp hc).1
        · intro hc
          exact hm (List.append_eq_nil.mp hc).1
      | none =>
        simp only [hmm]
        simp

theorem replaceAllPatAux_head {p : List PatElem} {m : List Char} (hm : m ≠ [])
    (fuel : ℕ) (w : List Char) :
    (replaceAllPatAux p m fuel w).head? = w.head? ∨
      (replaceAllPatAux p m fuel w).head? = m.head? := by
  cases fuel with
  | zero =>
    cases w with
    | nil => left; rfl
    | cons c cs => left; rfl
  | succ fuel =>
    cases w with
    | nil => left; rfl
    | cons c cs =>
      simp only [replaceAllPatAux]
      cases hmm : matchElems p (c :: cs) with
      | some rest =>
        simp only [hmm]
        split
        · right
          cases m with
          | nil => exact absurd rfl hm
          | cons a as => simp
        · right
          cases m with
          | nil => exact absurd rfl hm
          | cons a as => simp
      | none =>
        simp only [hmm]
        left
        simp

theorem suffix_getLast?_eq {r w : List Char} (h : r <:+ w) (hne : r ≠ []) :
    r.getLast? = w.getLast? := by
  obtain ⟨u, rfl⟩ := h
  rw [List.getLast?_append_of_ne_nil u hne]

theorem replaceAllPatAux_last {p : List PatElem} {m : List Char} (hm : m ≠ []) :
    ∀ (fuel : ℕ) (w : List Char),
      (replaceAllPatAux p m fuel w).getLast? = w.getLast? ∨
        (replaceAllPatAux p m fuel w).getLast? = m.getLast? := by
  intro fuel
  induction fuel with
  | zero =>
    intro w
    cases w with
    | nil => left; rfl
    | cons c cs => left; rfl
  | succ fuel ih =>
    intro w
    cases w with
    | nil => left; rfl
    | cons c cs =>
      simp only [replaceAllPatAux]
      cases hmm : matchElems p (c :: cs) with
      | some rest =>
        simp only [hmm]
        split
        · -- marker followed by the redacted remainder
          by_cases hr : rest = []
          · subst hr
            right
            have : replaceAllPatAux p m fuel ([] : List Char) = [] := by
              simp [replaceAllPatAux]
            rw [this, List.append_nil]
          · have hXne : replaceAllPatAux p m fuel rest ≠ [] :=
              replaceAllPatAux_ne_nil hm fuel rest hr
            rw [List.getLast?_append_of_ne_nil m hXne]
            rcases ih rest with h | h
            · left
              rw [h]
              exact suffix_getLast?_eq (matchElems_suffix hmm) hr
            · right
              exact h
        · -- unreachable empty-match branch of the definition
          have hXne : c :: replaceAllPatAux p m fuel cs ≠ [] := by simp
          rw [List.getLast?_append_of_ne_nil m hXne]
          by_cases hcs : cs = []
          · subst hcs
            left
            simp [replaceAllPatAux]
          · have hX2 : replaceAllPatAux p m fuel cs ≠ [] :=
              replaceAllPatAux_ne_nil hm fuel cs hcs
            rw [getLast?_cons_of_ne hX2, getLast?_cons_of_ne hcs]
            exact ih cs
      | none =>
        simp only [hmm]
        by_cases hcs : cs = []
        · subst hcs
          left
          simp [replaceAllPatAux]
        · have hX2 : replaceAllPatAux p m fuel cs ≠ [] :=
            replaceAllPatAux_ne_nil hm fuel cs hcs
          rw [getLast?_cons_of_ne hX2, getLast?_cons_of_ne hcs]
          exact ih cs

theorem noWs_no_space {l : List Char} (h : l.all (fun c => !jsWs c) = true) :
    ∀ c ∈ l, c ≠ ' ' := by
  intro c hc he
  subst he
  have := List.all_eq_true.mp h _ hc
  exact absurd this (by decide)

theorem noAdjSpaces_of_noWs {l : List Char} (h : l.all (fun c => !jsWs c) = true) :
    noAdjSpaces l = true := by
  induction l with
  | nil => rfl
  | cons c cs ih =>
    have hc : c ≠ ' ' := noWs_no_space h c (List.mem_cons_self c cs)
    have hcs : cs.all (fun c => !jsWs c) = true := by
      simp only [List.all_cons, Bool.and_eq_true] at h
      exact h.2
    exact noAdjSpaces_cons (ih hcs) (fun hx => hc hx.1)

theorem getLast?_mem {l : List Char} {a : Char} (h : l.getLast? = some a) : a ∈ l := by
  induction l with
  | nil => simp at h
  | cons c cs ih =>
    cases cs with
    | nil =>
      simp only [List.getLast?_singleton, Option.some.injEq] at h
      subst h
      exact List.mem_cons_self _ _
    | cons d ds =>
      rw [List.getLast?_cons_cons] at h
      exact List.mem_cons_of_mem c (ih h)

theorem headNotWs_of_noWs {l : List Char} (h : l.all (fun c => !jsWs c) = true) :
    headNotWs l = true := by
  cases l with
  | nil => rfl
  | cons c cs =>
    simp only [List.all_cons, Bool.and_eq_true] at h
    exact h.1

theorem lastNotWs_of_noWs {l : List Char} (h : l.all (fun c => !jsWs c) = true) :
    lastNotWs l = true := by
  unfold lastNotWs
  cases hg : l.getLast? with
  | none => rfl
  | some c => exact List.all_eq_true.mp h c (getLast?_mem hg)

theorem normedChars_append {a b : List Char} :
    normedChars (a ++ b) = (normedChars a && normedChars b) := by
  simp [normedChars, List.all_append]

theorem noAdjSpaces_append {a b : List Char} (ha : noAdjSpaces a = true)
    (hb : noAdjSpaces b = true)
    (hj : ¬(a.getLast? = some ' ' ∧ b.head? = some ' ')) :
    noAdjSpaces (a ++ b) = true := by
  induction a with
  | nil => simpa using hb
  | cons c cs ih =>
    cases cs with
    | nil =>
      simp only [List.cons_append, List.nil_append]
      refine noAdjSpaces_cons hb ?_
      rintro ⟨rfl, hx⟩
      exact hj ⟨rfl, hx⟩
    | cons d ds =>
      have ha' : noAdjSpaces (d :: ds) = true := by
        simp only [noAdjSpaces, Bool.and_eq_true] at ha
        exact ha.2
      have hj' : ¬((d :: ds).getLast? = some ' ' ∧ b.head? = some ' ') := by
        rintro ⟨h1, h2⟩
        exact hj ⟨by rw [List.getLast?_cons_cons]; exact h1, h2⟩
      have htail := ih ha' hj'
      simp only [List.cons_append] at htail ⊢
      simp only [noAdjSpaces, Bool.and_eq_true] at ha ⊢
      exact ⟨ha.1, htail⟩

/-- Prepending the whitespace-free marker to normalized text keeps it
normalized. -/
theorem normed_marker_append {m X : List Char}
    (hmws : m.all (fun c => !jsWs c) = true)
    (hX : normed X = true) : normed (m ++ X) = true := by
  simp only [normed, Bool.and_eq_true] at hX ⊢
  constructor
  · rw [normedChars_append]
    simp only [Bool.and_eq_true]
    refine ⟨?_, hX.1⟩
    simp only [normedChars, List.all_eq_true]
    intro c hc
    have := List.all_eq_true.mp hmws c hc
    simp [this]
  · refine noAdjSpaces_append (noAdjSpaces_of_noWs hmws) hX.2 ?_
    rintro ⟨h1, -⟩
    exact noWs_no_space hmws ' ' (getLast?_mem h1) rfl

/-- Redacting normalized text with a whitespace-free nonempty marker yields
normalized text. -/
theorem replaceAllPatAux_normed {p : List PatElem} {m : List Char}
    (hmws : m.all (fun c => !jsWs c) = true) (hm : m ≠ []) :
    ∀ (fuel : ℕ) (w : List Char), normed w = true →
      normed (replaceAllPatAux p m fuel w) = true := by
  intro fuel
  induction fuel with
  | zero =>
    intro w hw
    cases w with
    | nil => rfl
    | cons c cs => simpa [replaceAllPatAux] using hw
  | succ fuel ih =>
    intro w hw
    cases w with
    | nil => rfl
    | cons c cs =>
      have hXcs : normed (replaceAllPatAux p m fuel cs) = true :=
        ih cs (normed_tail hw)
      have hcX : normed (c :: replaceAllPatAux p m fuel cs) = true := by
        simp only [normed, Bool.and_eq_true] at hXcs ⊢
        constructor
        · simp only [normedChars, List.all_cons, Bool.and_eq_true]
          refine ⟨?_, hXcs.1⟩
          have hw' := hw
          simp only [normed, normedChars, List.all_cons, Bool.and_eq_true] at hw'
          exact hw'.1.1
        · refine noAdjSpaces_cons hXcs.2 ?_
          rintro ⟨rfl, hh⟩
          rcases replaceAllPatAux_head hm fuel cs with h | h
          · rw [h] at hh
            cases cs with
            | nil => simp at hh
            | cons d ds =>
              simp only [List.head?_cons, Option.some.injEq] at hh
              subst hh
              simp [normed, noAdjSpaces] at hw
          · rw [h] at hh
            cases m with
            | nil => exact hm rfl
            | cons a as =>
              simp only [List.head?_cons, Option.some.injEq] at hh
              subst hh
              have := List.all_eq_true.mp hmws ' ' (List.mem_cons_self _ _)
              exact absurd this (by decide)
      simp only [replaceAllPatAux]
      cases hmm : matchElems p (c :: cs) with
      | some rest =>
        simp only [hmm]
        split
        · exact normed_marker_append hmws
            (ih rest (normed_suffix (matchElems_suffix hmm) hw))
        · exact normed_marker_append hmws hcX
      | none =>
        simp only [hmm]
        exact hcX

theorem headNotWs_of_head?_cases {X w m : List Char}
    (h : X.head? = w.head? ∨ X.head? = m.head?)
    (hw : headNotWs w = true) (hm : headNotWs m = true) : headNotWs X = true := by
  cases X with
  | nil => rfl
  | cons x xs =>
    rcases h with h | h
    · cases w with
      | nil => simp at h
      | cons a as =>
        simp only [List.head?_cons, Option.some.injEq] at h
        subst h
        exact hw
    · cases m with
      | nil => simp at h
      | cons a as =>
        simp only [List.head?_cons, Option.some.injEq] at h
        subst h
        exact hm

theorem lastNotWs_of_getLast?_cases {X w m : List Char}
    (h : X.getLast? = w.getLast? ∨ X.getLast? = m.getLast?)
    (hw : lastNotWs w = true) (hm : lastNotWs m = true) : lastNotWs X = true := by
  unfold lastNotWs at *
  rcases h with h | h
  · rw [h]
    exact hw
  · rw [h]
    exact hm

theorem replaceAllPat_headNotWs {p : List PatElem} {m : List Char} (hm : m ≠ [])
    (hmh : headNotWs m = true) {w : List Char} (hw : headNotWs w = true) :
    headNotWs (replaceAllPat p m w) = true :=
  headNotWs_of_head?_cases (replaceAllPatAux_head hm w.length w) hw hmh

theorem replaceAllPat_lastNotWs {p : List PatElem} {m : List Char} (hm : m ≠ [])
    (hml : lastNotWs m = true) {w : List Char} (hw : lastNotWs w = true) :
    lastNotWs (replaceAllPat p m w) = true :=
  lastNotWs_of_getLast?_cases (replaceAllPatAux_last hm w.length w) hw hml

/-- `replace(/\s+/g, ' ')` is the identity on whitespace-normalized text
(simultaneously handling the run-tracking flag when the head is not
whitespace). -/
theorem collapseWsAux_id (l : List Char) (hn : normed l = true) :
    collapseWsAux false l = l ∧ (headNotWs l = true → collapseWsAux true l = l) := by
  induction l with
  | nil => exact ⟨rfl, fun _ => rfl⟩
  | cons c cs ih =>
    have hcs := ih (normed_tail hn)
    by_cases hc : jsWs c
    · have hcsp : c = ' ' := by
        have hn' := hn
        simp only [normed, normedChars, List.all_cons, Bool.and_eq_true] at hn'
        have h1 := hn'.1.1
        rw [Bool.or_eq_true] at h1
        rcases h1 with h1 | h1
        · rw [Bool.not_eq_true'] at h1
          exact absurd h1 (by simp [hc])
        · exact eq_of_beq h1
      subst hcsp
      have hhead : headNotWs cs = true := by
        cases cs with
        | nil => rfl
        | cons d ds =>
          have hn' := hn
          simp only [normed, normedChars, noAdjSpaces, List.all_cons,
            Bool.and_eq_true] at hn'
          cases hd : jsWs d
          · simp [headNotWs, hd]
          · exfalso
            have h1 := hn'.1.2.1
            rw [Bool.or_eq_true] at h1
            rcases h1 with h1 | h1
            · rw [Bool.not_eq_true'] at h1
              exact absurd h1 (by simp [hd])
            · have hd' := eq_of_beq h1
              subst hd'
              have h2 := hn'.2.1
              simp at h2
      constructor
      · simp only [collapseWsAux, if_pos hc]
        simp only [Bool.false_eq_true, if_false]
        rw [hcs.2 hhead]
      · intro hH
        simp [headNotWs, hc] at hH
    · constructor
      · simp only [collapseWsAux, if_neg hc]
        rw [hcs.1]
      · intro _
        simp only [collapseWsAux, if_neg hc]
        rw [hcs.1]

theorem collapseWs_id {l : List Char} (hn : normed l = true) : collapseWs l = l :=
  (collapseWsAux_id l hn).1

/-- `trim()` is the identity on text with no leading or trailing
whitespace. -/
theorem trimJs_id {l : List Char} (hh : headNotWs l = true)
    (hl : lastNotWs l = true) : trimJs l = l := by
  unfold trimJs
  rw [dropWhile_of_headNotWs hh]
  have h2 : headNotWs l.reverse = true := by
    have h3 := lastNotWs_reverse l.reverse
    rw [List.reverse_reverse] at h3
    rw [← h3]
    exact hl
  rw [dropWhile_of_headNotWs h2, List.reverse_reverse]

/-- Occurrence transfer through a whole sequence of global replaces. -/
theorem fold_occ_through {m : List Char} (hlm : lower m = m) :
    ∀ (ps : List (List PatElem)) (w v : List Char), goodReal m v →
      v <:+: lower (ps.foldl (fun acc p => replaceAllPat p m acc) w) →
      v <:+: lower w := by
  intro ps
  induction ps with
  | nil =>
    intro w v _ h
    simpa using h
  | cons p ps ih =>
    intro w v hg h
    have h1 := ih (replaceAllPat p m w) v hg (by simpa using h)
    exact occ_through_replace hlm w.length w v le_rfl hg h1

/-- Master fold lemma: running the global replaces of a list of well-formed
patterns over tidy normalized text yields tidy normalized text in which no
pattern of the list has a match any more. -/
theorem fold_props {m : List Char} (hlm : lower m = m)
    (hmws : m.all (fun c => !jsWs c) = true) (hm : m ≠ []) :
    ∀ (ps : List (List PatElem)) (w : List Char),
      (∀ p ∈ ps, wfPat p = true) →
      (∀ p ∈ ps, ∀ v ∈ reals p, goodReal m v) →
      (∀ p ∈ ps, ∀ v ∈ reals p, v ≠ []) →
      normed w = true → headNotWs w = true → lastNotWs w = true →
      normed (ps.foldl (fun acc p => replaceAllPat p m acc) w) = true ∧
      headNotWs (ps.foldl (fun acc p => replaceAllPat p m acc) w) = true ∧
      lastNotWs (ps.foldl (fun acc p => replaceAllPat p m acc) w) = true ∧
      ∀ p ∈ ps, hasMatch p (ps.foldl (fun acc p => replaceAllPat p m acc) w) = false := by
  intro ps
  induction ps with
  | nil =>
    intro w _ _ _ hn hh hl
    exact ⟨by simpa using hn, by simpa using hh, by simpa using hl, by simp⟩
  | cons p ps ih =>
    intro w hwf hgood hne hn hh hl
    have hn' : normed (replaceAllPat p m w) = true :=
      replaceAllPatAux_normed hmws hm w.length w hn
    have hh' : headNotWs (replaceAllPat p m w) = true :=
      replaceAllPat_headNotWs hm (headNotWs_of_noWs hmws) hh
    have hl' : lastNotWs (replaceAllPat p m w) = true :=
      replaceAllPat_lastNotWs hm (lastNotWs_of_noWs hmws) hl
    have hrec := ih (replaceAllPat p m w)
      (fun q hq => hwf q (List.mem_cons_of_mem _ hq))
      (fun q hq => hgood q (List.mem_cons_of_mem _ hq))
      (fun q hq => hne q (List.mem_cons_of_mem _ hq))
      hn' hh' hl'
    refine ⟨by simpa using hrec.1, by simpa using hrec.2.1,
      by simpa using hrec.2.2.1, ?_⟩
    intro q hq
    simp only [List.foldl_cons]
    rcases List.mem_cons.mp hq with rfl | hq'
    · cases hres : hasMatch q
          (ps.foldl (fun acc p => replaceAllPat p m acc) (replaceAllPat q m w)) with
      | false => rfl
      | true =>
        exfalso
        have hnf : normed
            (ps.foldl (fun acc p => replaceAllPat p m acc) (replaceAllPat q m w)) = true := by
          simpa using hrec.1
        obtain ⟨v, hv, hvo⟩ :=
          (hasMatch_iff_occurs (hwf q (List.mem_cons_self _ _)) hnf).mp hres
        have hvw : v <:+: lower (replaceAllPat q m w) :=
          fold_occ_through hlm ps (replaceAllPat q m w) v
            (hgood q (List.mem_cons_self _ _) v hv) hvo
        exact self_through_replace hlm (hwf q (List.mem_cons_self _ _))
          (hgood q (List.mem_cons_self _ _)) (hne q (List.mem_cons_self _ _))
          w.length w le_rfl hn v hv hvw
    · simpa using hrec.2.2.2 q hq'

theorem marker_lower : lower redactedMarker = redactedMarker := rfl

theorem marker_noWs : redactedMarker.all (fun c => !jsWs c) = true := by decide

theorem marker_ne : redactedMarker ≠ [] := by decide

theorem suspicious_wfPat : ∀ p ∈ suspiciousPatterns, wfPat p = true := by decide

theorem suspicious_reals_ne : ∀ p ∈ suspiciousPatterns, ∀ v ∈ reals p, v ≠ [] := by
  decide

instance goodRealDec (m v : List Char) : Decidable (goodReal m v) := by
  unfold goodReal
  exact inferInstance

theorem suspicious_goodReal :
    ∀ p ∈ suspiciousPatterns, ∀ v ∈ reals p, goodReal redactedMarker v := by
  decide

/-- A tidy (trimmed, whitespace-normalized), pattern-free, length-conforming
character list passes `sanitizeUserInput` unchanged. -/
theorem sanitize_fixed {S1 : List Char}
    (hn : normed S1 = true) (hh : headNotWs S1 = true) (hl : lastNotWs S1 = true)
    (hNoMatch : ∀ p ∈ suspiciousPatterns, hasMatch p S1 = false)
    (hlong : ¬ 500 < S1.length) (hshort : ¬ S1.length < 3) :
    sanitizeUserInput (String.mk S1) = .ok (String.mk S1) := by
  have hne : ¬ (String.mk S1 = "") := by
    intro hx
    have hS : S1 = [] := congrArg String.toList hx
    rw [hS] at hshort
    exact hshort (by decide)
  have htl : (String.mk S1).toList = S1 := rfl
  have hAny : suspiciousPatterns.any (fun p => hasMatch p S1) = false := by
    rw [List.any_eq_false]
    intro p hp
    simp [hNoMatch p hp]
  simp only [sanitizeUserInput]
  rw [if_neg hne, htl, trimJs_id hh hl, collapseWs_id hn]
  simp only [hAny, Bool.false_eq_true, if_false]
  rw [if_neg hlong, if_neg hshort]

/-- **C6**: for every string that `sanitizeUserInput` accepts, the function
is idempotent — running it on its own output succeeds and returns that
output unchanged. -/
theorem claim_C6_sanitize_idempotent {input t : String}
    (h : sanitizeUserInput input = .ok t) :
    sanitizeUserInput t = .ok t := by
  simp only [sanitizeUserInput] at h
  by_cases h0 : input = ""
  · rw [if_pos h0] at h
    exact absurd h (by simp)
  rw [if_neg h0] at h
  have hS0n : normed (collapseWs (trimJs input.toList)) = true :=
    collapseWs_normed (trimJs input.toList)
  have hS0h : headNotWs (collapseWs (trimJs input.toList)) = true :=
    headNotWs_collapseWs (headNotWs_trimJs input.toList)
  have hS0l : lastNotWs (collapseWs (trimJs input.toList)) = true :=
    lastNotWs_collapseWsAux (lastNotWs_trimJs input.toList) false
  by_cases hAny : (suspiciousPatterns.any
      fun p => hasMatch p (collapseWs (trimJs input.toList))) = true
  · rw [if_pos hAny] at h
    have hfold := fold_props marker_lower marker_noWs marker_ne suspiciousPatterns
      (collapseWs (trimJs input.toList)) suspicious_wfPat suspicious_goodReal
      suspicious_reals_ne hS0n hS0h hS0l
    by_cases hlong : 500 < (suspiciousPatterns.foldl
        (fun acc p => replaceAllPat p redactedMarker acc)
        (collapseWs (trimJs input.toList))).length
    · rw [if_pos hlong] at h
      exact absurd h (by simp)
    rw [if_neg hlong] at h
    by_cases hshort : (suspiciousPatterns.foldl
        (fun acc p => replaceAllPat p redactedMarker acc)
        (collapseWs (trimJs input.toList))).length < 3
    · rw [if_pos hshort] at h
      exact absurd h (by simp)
    rw [if_neg hshort] at h
    have ht : t = String.mk (suspiciousPatterns.foldl
        (fun acc p => replaceAllPat p redactedMarker acc)
        (collapseWs (trimJs input.toList))) := (Except.ok.inj h).symm
    rw [ht]
    exact sanitize_fixed hfold.1 hfold.2.1 hfold.2.2.1 hfold.2.2.2 hlong hshort
  · rw [if_neg hAny] at h
    have hNoMatch : ∀ p ∈ suspiciousPatterns,
        hasMatch p (collapseWs (trimJs input.toList)) = false := by
      have hAnyF := Bool.eq_false_iff.mpr hAny
      rw [List.any_eq_false] at hAnyF
      intro p hp
      have := hAnyF p hp
      simpa using this
    by_cases hlong : 500 < (collapseWs (trimJs input.toList)).length
    · rw [if_pos hlong] at h
      exact absurd h (by simp)
    rw [if_neg hlong] at h
    by_cases hshort : (collapseWs (trimJs input.toList)).length < 3
    · rw [if_pos hshort] at h
      exact absurd h (by simp)
    rw [if_neg hshort] at h
    have ht : t = String.mk (collapseWs (trimJs input.toList)) :=
      (Except.ok.inj h).symm
    rw [ht]
    exact sanitize_fixed hS0n hS0h hS0l hNoMatch hlong hshort

/-- Witness for C6: a concrete accepted input (exercising whitespace
collapsing and redaction) whose sanitized output sanitizes to itself. -/
theorem claim_C6_sanitize_idempotent_witness :
    sanitizeUserInput "Je  mange   [system] une pomme" =
      .ok "Je mange [redacted] une pomme" ∧
    sanitizeUserInput "Je mange [redacted] une pomme" =
      .ok "Je mange [redacted] une pomme" :=
  ⟨by rfl, @claim_C6_sanitize_idempotent "Je  mange   [system] une pomme"
    "Je mange [redacted] une pomme" (by rfl)⟩
